import Mathlib

/-!
# Elastic-net regularisation path driver

A shallow embedding of `examples/cpp/elastic_net_mapd.cpp` and the properties
its specification states about it.

Modelling conventions.

* The numeric type `T` (`float` or `double`) is an arbitrary linearly ordered
  field `α`: arithmetic is exact, rounding, overflow and underflow are not
  modelled.  Of the exceptional values only the NaN of a `0/0`, a mean over
  zero elements, is modelled, as `none`; infinities (`log 0`) are not.
* The one place where a floating-point value decides an integer, the row count
  `mValid = static_cast<size_t>(m * validFraction)`, is modelled in IEEE 754
  binary64: `validFraction` is the rational value of a `double`
  (`roundDouble validFraction = validFraction`) and the product is rounded to
  the nearest `double` before it is truncated.
* The C library functions `std::sqrt`, `std::exp`, `std::log` are parameters
  (`sqrt`, `exp`, `log`); the theorems instantiate them with `Real.sqrt`,
  `Real.exp`, `Real.log`.
* A buffer read through a pointer is a function `Nat → α`; a `std::vector`
  that the code builds is a `List α`.
* A `for (k = 0; k < n; ++k)` loop is `forLoop n body`; loop counters are
  natural numbers (the dimensions are assumed to fit the counters' C types).
* The external solver is an oracle `GetX a i j`: coefficient `j` of
  `pogs_data.GetX()` after the `Solve` call at alpha index `a`, lambda index
  `i`.  The OpenMP region is modelled with a single worker thread (`me = 0`),
  which processes the alpha indices in increasing order.
* What a run does is recorded as a list of events: the lines written to
  `stdout`/`stderr` and the calls to the external collaborators (matrix
  staging, solver).  Timings and the per-worker log file are not modelled.
-/

namespace ElasticNetMapd

/-- The loop `for (k = 0; k < n; ++k) s = body k s`, started in state `s`. -/
def forLoop {σ : Type} : Nat → (Nat → σ → σ) → σ → σ
  | 0, _, s => s
  | k + 1, body, s => body k (forLoop k body s)

section Model

variable {α : Type} [LinearOrderedField α]

/-- The function `getRMSE(len, v1, v2)` (lines 17-26).  For `len = 0` the accumulated sum
is `0` and `rmse /= (double)len` is `0/0`, a NaN: `none`. -/
def getRMSE (sqrt : α → α) (len : Nat) (v1 v2 : Nat → α) : Option α :=
  let rmse := forLoop len (fun i rmse => let d := v1 i - v2 i; rmse + d * d) 0
  if len = 0 then none else some (sqrt (rmse / (len : α)))

/-- The active-variable count of lines 189-194, for the coefficient vector `x`
(`pogs_data.GetX()`). -/
def dof (n : Nat) (x : Nat → α) : Nat :=
  forLoop n (fun i dof => if |x i| > 1e-8 then dof + 1 else dof) 0

/-- The mixing weight of line 150 for alpha index `a`, with `N = nAlphas`. -/
def alpha (N a : Int) : α :=
  if N = 1 then 0.5 else (a : α) / (((if N > 1 then N - 1 else 1 : Int)) : α)

/-- The `lambda_max` of line 151. -/
def lambda_max (lambda_max0 : α) : α := 10 * lambda_max0

/-- The `lambda_min` of line 152. -/
def lambda_min (lambda_min_ratio lambda_max : α) : α := lambda_min_ratio * lambda_max

/-- The penalty strength of lines 174-175 at lambda index `i`. -/
def lambda (exp log : α → α) (lambda_max lambda_min : α) (nlambda i : Int) : α :=
  exp ((log lambda_max * ((nlambda : α) - 1 - (i : α)) + log lambda_min * (i : α))
    / ((nlambda : α) - 1))

/-- The prediction vector of lines 195-206 (and 211-221): a zero-initialised
vector of `m` entries, `P[i] += x[j] * X[i*n+j]` for every row and column. -/
def preds (m n : Nat) (x X : Nat → α) : List α :=
  forLoop m (fun i P =>
      forLoop n (fun j P => P.set i (P.getD i 0 + x j * X (i * n + j))) P)
    (List.replicate m 0)

/-- Rounding of a rational to the nearest integer, ties to the even one. -/
def roundTiesEven (q : ℚ) : Int :=
  if q - ⌊q⌋ < 1 / 2 then ⌊q⌋
  else if 1 / 2 < q - ⌊q⌋ then ⌊q⌋ + 1
  else if ⌊q⌋ % 2 = 0 then ⌊q⌋ else ⌊q⌋ + 1

/-- The exponent of the unit in the last place of a `double` at `x`: 52 binary
digits below the leading one, and never below the subnormal spacing `2^-1074`. -/
def ulpExp (x : ℚ) : Int := max (Int.log 2 |x|) (-1022) - 52

/-- The `double` nearest to `x` (IEEE 754 binary64, round to nearest, ties to
even); overflow to infinity is not modelled. -/
def roundDouble (x : ℚ) : ℚ := (roundTiesEven (x / 2 ^ ulpExp x) : ℚ) * 2 ^ ulpExp x

/-- The `mValid` of line 246, `static_cast<size_t>(m * validFraction)`: `m` is
converted to `double`, the product is the `double` product of the two, and the
cast truncates it towards zero.  `validFraction` is the value of a `double`. -/
def mValidOf (m : Nat) (validFraction : ℚ) : Nat :=
  ⌊roundDouble (roundDouble (m : ℚ) * validFraction)⌋₊

/-- The `mTrain` of line 265, `m - mValid` in `size_t` (64-bit, wrapping). -/
def mTrainOf (m mValid : Nat) : Nat := (((m : Int) - (mValid : Int)) % 2 ^ 64).toNat

/-- The four vectors the split of lines 263-289 leaves behind. -/
structure Split (α : Type) where
  trainX : List α
  trainY : List α
  validX : List α
  validY : List α

/-- Copy of `rows` rows of `n` columns, lines 271-278 (`off = 0`) and 282-287
(`off = mTrain`): `Y[i] = b[off + i]`, `X[i*n+j] = A[(off+i)*n+j]`, into
vectors resized to `rows * n` and `rows` entries. -/
def copyRows (A b : List α) (off rows n : Nat) : List α × List α :=
  forLoop rows (fun i (s : List α × List α) =>
      let Y := s.2.set i (b.getD (off + i) 0)
      let X := forLoop n (fun j X => X.set (i * n + j) (A.getD ((off + i) * n + j) 0)) s.1
      (X, Y))
    (List.replicate (rows * n) 0, List.replicate rows 0)

/-- The head/tail split of lines 263-289 of the filled `A` (row-major, `m*n`
entries) and `b` (`m` entries). -/
def split (A b : List α) (mTrain n mValid : Nat) : Split α :=
  let train := copyRows A b 0 mTrain n
  let valid := if mValid > 0 then copyRows A b mTrain mValid n else ([], [])
  ⟨train.1, train.2, valid.1, valid.2⟩

/-- The mean of lines 297 and 312: `std::accumulate(begin, end, T(0)) / size`;
over an empty vector this is `0/0`, a NaN: `none`. -/
def meanOf (v : List α) : Option α :=
  if v.length = 0 then none else some (v.foldl (fun acc y => acc + y) 0 / (v.length : α))

/-- The base penalty of lines 327-335, as the code computes it: feature `j`,
row `i` reads `trainX[i + j * mTrain]`. -/
def lambda_max0 (mTrain n : Nat) (trainX trainY : List α) (meanTrainY : α) : α :=
  forLoop n (fun j lambda_max0 =>
      let u := forLoop mTrain (fun i u =>
        u + trainX.getD (i + j * mTrain) 0 * (trainY.getD i 0 - meanTrainY)) 0
      max lambda_max0 |u|) 0

/-- The record printed at lines 225-226 for one grid point. -/
structure Record (α : Type) where
  me : Nat
  a : Nat
  alpha : α
  i : Nat
  lambda : α
  dof : Nat
  trainRMSE : Option α
  validRMSE : Option α

/-- What a run does, in order: its `stdout`/`stderr` lines and its calls to the
matrix abstraction and the solver. -/
inductive Event (α : Type) where
  /-- Line 253, `START FILL DATA`; the fill itself is `readorgen.c`. -/
  | startFillData
  /-- Line 261, `END FILL DATA`. -/
  | endFillData
  /-- Line 263, `START TRAIN/VALID SPLIT`. -/
  | startSplit
  /-- Line 289, `END TRAIN/VALID SPLIT`. -/
  | endSplit
  /-- Line 292, `Rows in training data`. -/
  | rowsTraining (rows : Nat)
  /-- Line 299, `Mean trainY`. -/
  | meanTrainY (mean : Option α)
  /-- Line 300, `StdDev trainY` (value not modelled). -/
  | sdTrainY
  /-- Line 311, `Rows in validation data`. -/
  | rowsValidation (rows : Nat)
  /-- Line 313, `Mean validY`. -/
  | meanValidY (mean : Option α)
  /-- Line 314, `StdDev validY` (value not modelled). -/
  | sdValidY
  /-- Line 336, `lambda_max0`. -/
  | lambdaMax0 (v : α)
  /-- Line 339, `lambda_min_ratio`. -/
  | lambdaMinRatio (v : α)
  /-- Lines 383 and 79: the source `MatrixDense` is built from the host data. -/
  | stageSource
  /-- Line 57, `Must use nlambda > 1` on `stderr`. -/
  | mustUseNlambda
  /-- Line 69, `Number of original threads`. -/
  | numThreads
  /-- Lines 123-124: the worker copy of the matrix and its solver are built. -/
  | stageWorker
  /-- Line 187, `pogs_data.Solve(f, g)` with the penalties `g[j].c`, `g[j].e`. -/
  | solve (c e : α)
  /-- Line 226, the record of one grid point. -/
  | record (r : Record α)
  /-- Line 233, `END SOLVE`. -/
  | endSolve

/-- How a run ends: it returns to its caller, or calls `exit(code)`. -/
inductive Status where
  | returned
  | exited (code : Int)
  deriving DecidableEq

/-- A run: the events in order and how it ended. -/
structure Run (α : Type) where
  log : List (Event α)
  status : Status

/-- The records of a log, in order. -/
def records (log : List (Event α)) : List (Record α) :=
  log.filterMap (fun ev => match ev with
    | Event.record r => some r
    | _ => none)

/-- One lambda step, lines 170-227, at alpha index `a` and lambda index `i`. -/
def lambdaStep (sqrt exp log : α → α) (GetX : Nat → Nat → Nat → α)
    (mTrain n mValid : Nat) (nlambda : Int) (trainX trainY validX validY : Nat → α)
    (a : Nat) (alpha lambda_max lambda_min : α) (i : Nat) : List (Event α) :=
  let lambda := lambda exp log lambda_max lambda_min nlambda i
  let penalty_factor : α := 1
  let c := alpha * lambda * penalty_factor
  let e := (1 - alpha) * lambda * penalty_factor
  let x := GetX a i
  let dof := dof n x
  let trainPreds := preds mTrain n x trainX
  let trainRMSE := getRMSE sqrt mTrain (fun k => trainPreds.getD k 0) trainY
  let validRMSE :=
    if mValid > 0 then
      let validPreds := preds mValid n x validX
      getRMSE sqrt mValid (fun k => validPreds.getD k 0) validY
    else some (-1)
  [Event.solve c e, Event.record ⟨0, a, alpha, i, lambda, dof, trainRMSE, validRMSE⟩]

/-- One alpha step, lines 149-228: the grid values of alpha index `a`, then the
lambda loop. -/
def alphaStep (sqrt exp log : α → α) (GetX : Nat → Nat → Nat → α)
    (mTrain n mValid : Nat) (lambda_max0 lambda_min_ratio : α) (nlambda N : Int)
    (trainX trainY validX validY : Nat → α) (a : Nat) (out : List (Event α)) :
    List (Event α) :=
  let alpha : α := alpha N a
  let lambda_max := lambda_max lambda_max0
  let lambda_min := lambda_min lambda_min_ratio lambda_max
  forLoop nlambda.toNat (fun i out =>
      out ++ lambdaStep sqrt exp log GetX mTrain n mValid nlambda trainX trainY validX validY
        a alpha lambda_max lambda_min i)
    out

/-- The function `ElasticNetptr` (lines 52-235) on already split data.  The arguments
`sourceDev`, `datatype`, `nGPUs`, `ord` and `validFraction` do not enter what is
modelled and are left out. -/
def ElasticNetptr (sqrt exp log : α → α) (GetX : Nat → Nat → Nat → α)
    (mTrain n mValid : Nat) (lambda_max0 lambda_min_ratio : α) (nLambdas nAlphas : Int)
    (trainX trainY validX validY : Nat → α) : Run α :=
  let nlambda := nLambdas
  if nlambda ≤ 1 then
    ⟨[Event.mustUseNlambda], Status.exited (-1)⟩
  else
    let N := nAlphas
    let out := forLoop N.toNat
      (alphaStep sqrt exp log GetX mTrain n mValid lambda_max0 lambda_min_ratio nlambda N
        trainX trainY validX validY)
      [Event.numThreads, Event.stageSource, Event.stageWorker]
    ⟨out ++ [Event.endSolve], Status.returned⟩

/-- The function `ElasticNet` (lines 238-391) on the filled data `A`, `b`: split, target
statistics, base penalty, then `ElasticNetptr`.  When `trainY` is empty its
mean is a NaN that the loops of `lambda_max0` never read. -/
def ElasticNet (sqrt exp log : α → α) (GetX : Nat → Nat → Nat → α)
    (A b : List α) (m n : Nat) (nLambdas nAlphas : Int) (validFraction : ℚ) : Run α :=
  let mValid := mValidOf m validFraction
  let mTrain := mTrainOf m mValid
  let s := split A b mTrain n mValid
  let meanTrainY := meanOf s.trainY
  let validStats : List (Event α) :=
    if s.validY.isEmpty then []
    else [Event.rowsValidation s.validY.length, Event.meanValidY (meanOf s.validY),
      Event.sdValidY]
  let lambda_max0 := lambda_max0 mTrain n s.trainX s.trainY (meanTrainY.getD 0)
  let lambda_min_ratio : α := 1e-7
  let out : List (Event α) :=
    [Event.startFillData, Event.endFillData, Event.startSplit, Event.endSplit,
      Event.rowsTraining s.trainY.length, Event.meanTrainY meanTrainY, Event.sdTrainY]
    ++ validStats
    ++ [Event.lambdaMax0 lambda_max0, Event.lambdaMinRatio lambda_min_ratio, Event.stageSource]
  let r := ElasticNetptr sqrt exp log GetX mTrain n mValid lambda_max0 lambda_min_ratio
    nLambdas nAlphas (fun k => s.trainX.getD k 0) (fun k => s.trainY.getD k 0)
    (fun k => s.validX.getD k 0) (fun k => s.validY.getD k 0)
  ⟨out ++ r.log, r.status⟩

/-- The root-mean-square error as the specification writes it:
`sqrt((1/m) * Σ_i (pred_i - Y[i])^2)` with `pred_i = Σ_j x[j] * X[i*n+j]`;
undefined (`none`) over zero rows. -/
def rmseSpec (sqrt : α → α) (m n : Nat) (x X Y : Nat → α) : Option α :=
  if m = 0 then none
  else some (sqrt ((1 / (m : α)) *
    ∑ i in Finset.range m, ((∑ j in Finset.range n, x j * X (i * n + j)) - Y i) ^ 2))

/-- The base penalty as the specification writes it for a row-major `trainX`:
`max_j |u_j|` with `u_j = Σ_i trainX[i*n+j] * (trainY[i] - meanTrainY)`. -/
def lambdaMax0Spec (mTrain n : Nat) (trainX trainY : List α) (meanTrainY : α) : α :=
  ((List.range n).map (fun j =>
    |((List.range mTrain).map (fun i =>
      trainX.getD (i * n + j) 0 * (trainY.getD i 0 - meanTrainY))).sum|)).foldl max 0

end Model

end ElasticNetMapd

namespace ElasticNetMapd

/-! ## Loops -/

section Loops

variable {α : Type} [LinearOrderedField α]

theorem forLoop_succ {σ : Type} (k : Nat) (body : Nat → σ → σ) (s : σ) :
    forLoop (k + 1) body s = body k (forLoop k body s) := rfl

/-- An accumulating loop computes the sum of its summands. -/
theorem forLoop_add_eq_sum (n : Nat) (f : Nat → α) :
    forLoop n (fun i s => s + f i) 0 = ∑ i in Finset.range n, f i := by
  induction n with
  | zero => simp [forLoop]
  | succ k ih => rw [forLoop_succ, ih, Finset.sum_range_succ]

/-- A counting loop computes the number of indices that pass the test. -/
theorem forLoop_count (n : Nat) (p : Nat → Prop) [DecidablePred p] :
    forLoop n (fun i c => if p i then c + 1 else c) 0
      = ((Finset.range n).filter p).card := by
  induction n with
  | zero => simp [forLoop]
  | succ k ih =>
    rw [forLoop_succ, ih, Finset.range_succ, Finset.filter_insert]
    by_cases h : p k
    · simp [h]
    · simp [h]

/-- A loop that appends to its state leaves the initial state as a prefix. -/
theorem forLoop_append {β : Type} (k : Nat) (f : Nat → List β) (s : List β) :
    forLoop k (fun i out => out ++ f i) s = s ++ forLoop k (fun i out => out ++ f i) [] := by
  induction k with
  | zero => simp [forLoop]
  | succ k ih => rw [forLoop_succ, forLoop_succ, ih, List.append_assoc]

/-- The elements a loop appends are those of its steps. -/
theorem mem_forLoop_append {β : Type} (k : Nat) (f : Nat → List β) (x : β) :
    x ∈ forLoop k (fun i out => out ++ f i) [] ↔ ∃ i, i < k ∧ x ∈ f i := by
  induction k with
  | zero => simp [forLoop]
  | succ k ih =>
    rw [forLoop_succ, List.mem_append, ih]
    constructor
    · rintro (⟨i, hi, hx⟩ | hx)
      · exact ⟨i, Nat.lt_succ_of_lt hi, hx⟩
      · exact ⟨k, Nat.lt_succ_self k, hx⟩
    · rintro ⟨i, hi, hx⟩
      rcases Nat.lt_succ_iff_lt_or_eq.mp hi with h | h
      · exact Or.inl ⟨i, h, hx⟩
      · exact Or.inr (h ▸ hx)

/-- Each step of an appending loop is a contiguous part of what it builds. -/
theorem infix_forLoop_append {β : Type} (k : Nat) (f : Nat → List β) (i : Nat) (hi : i < k) :
    f i <:+: forLoop k (fun i out => out ++ f i) [] := by
  induction k with
  | zero => omega
  | succ k ih =>
    rw [forLoop_succ]
    rcases Nat.lt_succ_iff_lt_or_eq.mp hi with h | h
    · exact (ih h).trans (List.prefix_append _ _).isInfix
    · rw [h]
      exact (List.suffix_append _ _).isInfix

end Loops

/-! ## Active-variable count -/

section Dof

variable {α : Type} [LinearOrderedField α]

/-- C6. The `dof` loop counts the indices `j < n` with `|x[j]| > 1e-8`; it is
`0` for an all-zero vector, `n` when every entry exceeds `1e-8` in absolute
value, and never more than `n`. -/
theorem dof_eq_card (n : Nat) (x : Nat → α) :
    dof n x = ((Finset.range n).filter (fun j => |x j| > 1e-8)).card
    ∧ ((∀ j, j < n → x j = 0) → dof n x = 0)
    ∧ ((∀ j, j < n → |x j| > 1e-8) → dof n x = n)
    ∧ 0 ≤ dof n x ∧ dof n x ≤ n := by
  have h : dof n x = ((Finset.range n).filter (fun j => |x j| > 1e-8)).card :=
    forLoop_count n (fun j => |x j| > 1e-8)
  refine ⟨h, ?_, ?_, Nat.zero_le _, ?_⟩
  · intro hz
    rw [h, Finset.card_eq_zero, Finset.filter_eq_empty_iff]
    intro j hj
    rw [hz j (Finset.mem_range.mp hj)]
    norm_num
  · intro hall
    rw [h, Finset.filter_true_of_mem (fun j hj => hall j (Finset.mem_range.mp hj)),
      Finset.card_range]
  · rw [h]
    exact (Finset.card_filter_le _ _).trans_eq (Finset.card_range n)

end Dof

end ElasticNetMapd

namespace ElasticNetMapd

/-! ## Root-mean-square error -/

section RMSE

variable {α : Type} [LinearOrderedField α]

/-- The accumulator of `getRMSE` is the sum of the squared differences. -/
theorem getRMSE_eq (sqrt : α → α) (len : Nat) (v1 v2 : Nat → α) :
    getRMSE sqrt len v1 v2
      = if len = 0 then none
        else some (sqrt ((∑ i in Finset.range len, (v1 i - v2 i) * (v1 i - v2 i)) / (len : α))) := by
  unfold getRMSE
  simp only []
  rw [forLoop_add_eq_sum len (fun i => (v1 i - v2 i) * (v1 i - v2 i))]

/-- Over zero elements `getRMSE` is a NaN, whatever the buffers hold. -/
theorem getRMSE_zero (sqrt : α → α) (v1 v2 : Nat → α) : getRMSE sqrt 0 v1 v2 = none := by
  simp [getRMSE]

/-- C7, as stated, fails for `len = 0`: the two (empty) vectors agree
elementwise, yet `getRMSE` is not `0` but the NaN of `0/0`. -/
theorem getRMSE_empty_not_zero :
    ¬ (getRMSE Real.sqrt 0 (fun _ => 0) (fun _ => 0) = some 0
        ↔ ∀ i : Nat, i < 0 → (fun _ : Nat => (0 : ℝ)) i = (fun _ : Nat => (0 : ℝ)) i) := by
  rw [getRMSE_zero]
  simp

/-- C7, amended: for every `len ≥ 1` and all `v1`, `v2`, over exact real
arithmetic, `getRMSE` is `0` exactly when `v1[i] = v2[i]` for every `i < len`,
it is symmetric in `v1`, `v2`, and it is a non-negative number; for `len = 0`
it is a NaN. -/
theorem getRMSE_props (len : Nat) (v1 v2 : Nat → ℝ) (hlen : 1 ≤ len) :
    (getRMSE Real.sqrt len v1 v2 = some 0 ↔ ∀ i, i < len → v1 i = v2 i)
    ∧ getRMSE Real.sqrt len v1 v2 = getRMSE Real.sqrt len v2 v1
    ∧ (∃ r, getRMSE Real.sqrt len v1 v2 = some r ∧ 0 ≤ r)
    ∧ getRMSE Real.sqrt 0 v1 v2 = none := by
  have hne : len ≠ 0 := Nat.one_le_iff_ne_zero.mp hlen
  have hpos : (0 : ℝ) < (len : ℝ) := by exact_mod_cast hlen
  have hnn : ∀ i ∈ Finset.range len, 0 ≤ (v1 i - v2 i) * (v1 i - v2 i) :=
    fun i _ => mul_self_nonneg _
  have hS : 0 ≤ ∑ i in Finset.range len, (v1 i - v2 i) * (v1 i - v2 i) :=
    Finset.sum_nonneg hnn
  refine ⟨?_, ?_, ?_, getRMSE_zero _ _ _⟩
  · rw [getRMSE_eq, if_neg hne, Option.some_inj, Real.sqrt_eq_zero (div_nonneg hS hpos.le),
      div_eq_zero_iff, Finset.sum_eq_zero_iff_of_nonneg hnn]
    constructor
    · rintro (h | h)
      · intro i hi
        have := h i (Finset.mem_range.mpr hi)
        exact sub_eq_zero.mp (mul_self_eq_zero.mp this)
      · exact absurd h hpos.ne'
    · intro h
      left
      intro i hi
      rw [h i (Finset.mem_range.mp hi), sub_self, mul_zero]
  · rw [getRMSE_eq, getRMSE_eq]
    have : ∀ i, (v1 i - v2 i) * (v1 i - v2 i) = (v2 i - v1 i) * (v2 i - v1 i) := fun i => by ring
    simp only [this]
  · rw [getRMSE_eq, if_neg hne]
    exact ⟨_, rfl, Real.sqrt_nonneg _⟩

/-- C7, amended, at `len = 2`, `v1 = v2 = (0, 1)`. -/
theorem getRMSE_props_witness :
    (getRMSE Real.sqrt 2 (fun i => (i : ℝ)) (fun i => (i : ℝ)) = some 0
      ↔ ∀ i, i < 2 → (fun i : Nat => (i : ℝ)) i = (fun i : Nat => (i : ℝ)) i)
    ∧ getRMSE Real.sqrt 2 (fun i => (i : ℝ)) (fun i => (i : ℝ))
      = getRMSE Real.sqrt 2 (fun i => (i : ℝ)) (fun i => (i : ℝ))
    ∧ (∃ r, getRMSE Real.sqrt 2 (fun i => (i : ℝ)) (fun i => (i : ℝ)) = some r ∧ 0 ≤ r)
    ∧ getRMSE Real.sqrt 0 (fun i => (i : ℝ)) (fun i => (i : ℝ)) = none :=
  getRMSE_props 2 (fun i => (i : ℝ)) (fun i => (i : ℝ)) (by decide)

end RMSE

/-! ## The alpha grid -/

section Alpha

variable {α : Type} [LinearOrderedField α]

theorem alpha_one (a : Int) : (alpha 1 a : α) = 1 / 2 := by
  simp [alpha]
  norm_num

theorem alpha_of_two_le (N a : Int) (hN : 2 ≤ N) :
    (alpha N a : α) = (a : α) / ((N : α) - 1) := by
  have h1 : N ≠ 1 := by omega
  have h2 : N > 1 := by omega
  simp [alpha, h1, h2]

/-- C8. For `nAlphas ≥ 1` the values `alpha(a)`, `0 ≤ a < nAlphas`, are strictly
increasing in `a`, lie in `[0,1]`, are pairwise distinct (so there are `nAlphas`
of them); for `nAlphas = 1` the value is `1/2`, for `nAlphas ≥ 2` the first is
`0` and the last is `1`, and `nAlphas = 3` gives `0, 1/2, 1`. -/
theorem alpha_grid (N : Int) (hN : 1 ≤ N) :
    (∀ a b : Int, 0 ≤ a → a < b → b < N → (alpha N a : α) < alpha N b)
    ∧ (∀ a : Int, 0 ≤ a → a < N → (0 : α) ≤ alpha N a ∧ (alpha N a : α) ≤ 1)
    ∧ (∀ a b : Int, 0 ≤ a → a < N → 0 ≤ b → b < N → (alpha N a : α) = alpha N b → a = b)
    ∧ ((Finset.range N.toNat).image (fun a : Nat => (alpha N a : α))).card = N.toNat
    ∧ (N = 1 → (alpha N 0 : α) = 1 / 2)
    ∧ (2 ≤ N → (alpha N 0 : α) = 0 ∧ (alpha N (N - 1) : α) = 1)
    ∧ ((alpha 3 0 : α) = 0 ∧ (alpha 3 1 : α) = 1 / 2 ∧ (alpha 3 2 : α) = 1) := by
  have hmono : ∀ a b : Int, 0 ≤ a → a < b → b < N → (alpha N a : α) < alpha N b := by
    intro a b ha hab hb
    have h2 : 2 ≤ N := by omega
    have hd : (0 : α) < (N : α) - 1 := by
      have : (1 : α) < (N : α) := by exact_mod_cast (show (1 : Int) < N by omega)
      linarith
    rw [alpha_of_two_le N a h2, alpha_of_two_le N b h2]
    exact div_lt_div_of_pos_right (by exact_mod_cast hab) hd
  have hinj : ∀ a b : Int, 0 ≤ a → a < N → 0 ≤ b → b < N →
      (alpha N a : α) = alpha N b → a = b := by
    intro a b ha haN hb hbN hab
    rcases lt_trichotomy a b with h | h | h
    · exact absurd hab (hmono a b ha h hbN).ne
    · exact h
    · exact absurd hab (hmono b a hb h haN).ne'
  refine ⟨hmono, ?_, hinj, ?_, ?_, ?_, ?_⟩
  · intro a ha haN
    rcases eq_or_lt_of_le hN with h1 | h1
    · rw [← h1, alpha_one]
      norm_num
    · have h2 : 2 ≤ N := by omega
      have hd : (0 : α) < (N : α) - 1 := by
        have : (1 : α) < (N : α) := by exact_mod_cast h1
        linarith
      rw [alpha_of_two_le N a h2]
      constructor
      · exact div_nonneg (by exact_mod_cast ha) hd.le
      · rw [div_le_one hd]
        have : (a : α) + 1 ≤ (N : α) := by exact_mod_cast (show a + 1 ≤ N by omega)
        linarith
  · rw [Finset.card_image_of_injOn, Finset.card_range]
    intro a ha b hb hab
    have ha' : a < N.toNat := Finset.mem_range.mp (Finset.mem_coe.mp ha)
    have hb' : b < N.toNat := Finset.mem_range.mp (Finset.mem_coe.mp hb)
    have := hinj a b (by omega) (by omega) (by omega) (by omega) hab
    exact_mod_cast this
  · intro h1
    rw [h1, alpha_one]
  · intro h2
    rw [alpha_of_two_le N 0 h2, alpha_of_two_le N (N - 1) h2]
    have hd : (0 : α) < (N : α) - 1 := by
      have : (1 : α) < (N : α) := by exact_mod_cast (show (1 : Int) < N by omega)
      linarith
    constructor
    · simp
    · push_cast
      exact div_self hd.ne'
  · rw [alpha_of_two_le 3 0 (by decide), alpha_of_two_le 3 1 (by decide),
      alpha_of_two_le 3 2 (by decide)]
    norm_num

/-- C8 at `nAlphas = 3` over the rationals. -/
theorem alpha_grid_witness :
    (1 : Int) ≤ 3
    ∧ ((alpha 3 0 : ℚ) = 0 ∧ (alpha 3 1 : ℚ) = 1 / 2 ∧ (alpha 3 2 : ℚ) = 1) :=
  ⟨by decide, (alpha_grid 3 (by decide)).2.2.2.2.2.2⟩

end Alpha

end ElasticNetMapd

namespace ElasticNetMapd

/-! ## The log of a run -/

section Log

variable {α : Type} [LinearOrderedField α]

theorem mem_records {β : Type} (r : Record β) (out : List (Event β)) :
    r ∈ records out ↔ Event.record r ∈ out := by
  unfold records
  rw [List.mem_filterMap]
  constructor
  · rintro ⟨ev, hev, h⟩
    cases ev <;> simp at h
    rw [← h]
    exact hev
  · intro h
    exact ⟨Event.record r, h, rfl⟩

/-- The record that `lambdaStep` prints at grid point `(a, i)`. -/
theorem record_mem_lambdaStep (sqrt exp log : α → α) (GetX : Nat → Nat → Nat → α)
    (mTrain n mValid : Nat) (nlambda : Int) (trainX trainY validX validY : Nat → α)
    (a : Nat) (al lmax lmin : α) (i : Nat) (r : Record α) :
    Event.record r ∈ lambdaStep sqrt exp log GetX mTrain n mValid nlambda trainX trainY
        validX validY a al lmax lmin i
      ↔ r = ⟨0, a, al, i, lambda exp log lmax lmin nlambda i, dof n (GetX a i),
          getRMSE sqrt mTrain (fun k => (preds mTrain n (GetX a i) trainX).getD k 0) trainY,
          if mValid > 0 then
            getRMSE sqrt mValid (fun k => (preds mValid n (GetX a i) validX).getD k 0) validY
          else some (-1)⟩ := by
  simp [lambdaStep]

theorem alphaStep_append (sqrt exp log : α → α) (GetX : Nat → Nat → Nat → α)
    (mTrain n mValid : Nat) (lambda_max0 lambda_min_ratio : α) (nlambda N : Int)
    (trainX trainY validX validY : Nat → α) (a : Nat) (out : List (Event α)) :
    alphaStep sqrt exp log GetX mTrain n mValid lambda_max0 lambda_min_ratio nlambda N
        trainX trainY validX validY a out
      = out ++ alphaStep sqrt exp log GetX mTrain n mValid lambda_max0 lambda_min_ratio
          nlambda N trainX trainY validX validY a [] := by
  unfold alphaStep
  exact forLoop_append _ _ _

/-- The events of a run of `ElasticNetptr` that passes the `nlambda` check. -/
theorem mem_log_ElasticNetptr (sqrt exp log : α → α) (GetX : Nat → Nat → Nat → α)
    (mTrain n mValid : Nat) (lambda_max0 lambda_min_ratio : α) (nLambdas nAlphas : Int)
    (trainX trainY validX validY : Nat → α) (h : ¬ nLambdas ≤ 1) (ev : Event α) :
    ev ∈ (ElasticNetptr sqrt exp log GetX mTrain n mValid lambda_max0 lambda_min_ratio
        nLambdas nAlphas trainX trainY validX validY).log
      ↔ ev ∈ [Event.numThreads, Event.stageSource, Event.stageWorker]
        ∨ (∃ a, a < nAlphas.toNat ∧ ∃ i, i < nLambdas.toNat ∧
            ev ∈ lambdaStep sqrt exp log GetX mTrain n mValid nLambdas trainX trainY validX
              validY a (alpha nAlphas a) (lambda_max lambda_max0)
              (lambda_min lambda_min_ratio (lambda_max lambda_max0)) i)
        ∨ ev = Event.endSolve := by
  have hfun : alphaStep sqrt exp log GetX mTrain n mValid lambda_max0 lambda_min_ratio
        nLambdas nAlphas trainX trainY validX validY
      = fun a out => out ++ alphaStep sqrt exp log GetX mTrain n mValid lambda_max0
          lambda_min_ratio nLambdas nAlphas trainX trainY validX validY a [] := by
    funext a out
    exact alphaStep_append _ _ _ _ _ _ _ _ _ _ _ _ _ _ _ _ _
  unfold ElasticNetptr
  simp only [if_neg h]
  rw [hfun, forLoop_append, List.mem_append, List.mem_append, mem_forLoop_append,
    List.mem_singleton, or_assoc]
  apply or_congr Iff.rfl
  apply or_congr _ Iff.rfl
  apply exists_congr
  intro a
  apply and_congr Iff.rfl
  unfold alphaStep
  exact mem_forLoop_append _ _ _

/-- The records of a run of `ElasticNetptr`: one per grid point when the
`nlambda` check passes. -/
theorem mem_records_ElasticNetptr (sqrt exp log : α → α) (GetX : Nat → Nat → Nat → α)
    (mTrain n mValid : Nat) (lambda_max0 lambda_min_ratio : α) (nLambdas nAlphas : Int)
    (trainX trainY validX validY : Nat → α) (h : ¬ nLambdas ≤ 1) (r : Record α) :
    r ∈ records (ElasticNetptr sqrt exp log GetX mTrain n mValid lambda_max0 lambda_min_ratio
        nLambdas nAlphas trainX trainY validX validY).log
      ↔ ∃ a, a < nAlphas.toNat ∧ ∃ i, i < nLambdas.toNat ∧
          r = ⟨0, a, alpha nAlphas a, i,
            lambda exp log (lambda_max lambda_max0)
              (lambda_min lambda_min_ratio (lambda_max lambda_max0)) nLambdas i,
            dof n (GetX a i),
            getRMSE sqrt mTrain (fun k => (preds mTrain n (GetX a i) trainX).getD k 0) trainY,
            if mValid > 0 then
              getRMSE sqrt mValid (fun k => (preds mValid n (GetX a i) validX).getD k 0) validY
            else some (-1)⟩ := by
  rw [mem_records, mem_log_ElasticNetptr _ _ _ _ _ _ _ _ _ _ _ _ _ _ _ h]
  simp only [record_mem_lambdaStep]
  simp

/-- A lambda step is the solver call, with the penalties of its grid point,
followed by the record of that grid point. -/
theorem lambdaStep_eq (sqrt exp log : α → α) (GetX : Nat → Nat → Nat → α)
    (mTrain n mValid : Nat) (nlambda : Int) (trainX trainY validX validY : Nat → α)
    (a : Nat) (al lmax lmin : α) (i : Nat) :
    ∃ r : Record α,
      lambdaStep sqrt exp log GetX mTrain n mValid nlambda trainX trainY validX validY
          a al lmax lmin i
        = [Event.solve (r.alpha * r.lambda * 1) ((1 - r.alpha) * r.lambda * 1), Event.record r]
      ∧ r.a = a ∧ r.i = i
      ∧ r.trainRMSE
        = getRMSE sqrt mTrain (fun k => (preds mTrain n (GetX a i) trainX).getD k 0) trainY :=
  ⟨⟨0, a, al, i, lambda exp log lmax lmin nlambda i, dof n (GetX a i),
      getRMSE sqrt mTrain (fun k => (preds mTrain n (GetX a i) trainX).getD k 0) trainY,
      if mValid > 0 then
        getRMSE sqrt mValid (fun k => (preds mValid n (GetX a i) validX).getD k 0) validY
      else some (-1)⟩, rfl, rfl, rfl, rfl⟩

/-- The solver call and the record of every grid point stand side by side in
the log of a run of `ElasticNetptr` that passes the `nlambda` check. -/
theorem lambdaStep_infix_log (sqrt exp log : α → α) (GetX : Nat → Nat → Nat → α)
    (mTrain n mValid : Nat) (lambda_max0 lambda_min_ratio : α) (nLambdas nAlphas : Int)
    (trainX trainY validX validY : Nat → α) (h : ¬ nLambdas ≤ 1)
    (a i : Nat) (ha : a < nAlphas.toNat) (hi : i < nLambdas.toNat) :
    lambdaStep sqrt exp log GetX mTrain n mValid nLambdas trainX trainY validX validY a
        (alpha nAlphas a) (lambda_max lambda_max0)
        (lambda_min lambda_min_ratio (lambda_max lambda_max0)) i
      <:+: (ElasticNetptr sqrt exp log GetX mTrain n mValid lambda_max0 lambda_min_ratio
        nLambdas nAlphas trainX trainY validX validY).log := by
  have hfun : alphaStep sqrt exp log GetX mTrain n mValid lambda_max0 lambda_min_ratio
        nLambdas nAlphas trainX trainY validX validY
      = fun a out => out ++ alphaStep sqrt exp log GetX mTrain n mValid lambda_max0
          lambda_min_ratio nLambdas nAlphas trainX trainY validX validY a [] := by
    funext a out
    exact alphaStep_append _ _ _ _ _ _ _ _ _ _ _ _ _ _ _ _ _
  have h1 : lambdaStep sqrt exp log GetX mTrain n mValid nLambdas trainX trainY validX validY a
        (alpha nAlphas a) (lambda_max lambda_max0)
        (lambda_min lambda_min_ratio (lambda_max lambda_max0)) i
      <:+: alphaStep sqrt exp log GetX mTrain n mValid lambda_max0 lambda_min_ratio
          nLambdas nAlphas trainX trainY validX validY a [] := by
    unfold alphaStep
    exact infix_forLoop_append _ _ i hi
  have h2 := infix_forLoop_append nAlphas.toNat
    (fun a => alphaStep sqrt exp log GetX mTrain n mValid lambda_max0 lambda_min_ratio
      nLambdas nAlphas trainX trainY validX validY a []) a ha
  unfold ElasticNetptr
  simp only [if_neg h]
  rw [hfun, forLoop_append]
  exact (h1.trans h2).trans
    ((List.suffix_append _ _).isInfix.trans (List.prefix_append _ _).isInfix)

/-- A run of `ElasticNetptr` rejected by the `nlambda` check. -/
theorem ElasticNetptr_rejected (sqrt exp log : α → α) (GetX : Nat → Nat → Nat → α)
    (mTrain n mValid : Nat) (lambda_max0 lambda_min_ratio : α) (nLambdas nAlphas : Int)
    (trainX trainY validX validY : Nat → α) (h : nLambdas ≤ 1) :
    ElasticNetptr sqrt exp log GetX mTrain n mValid lambda_max0 lambda_min_ratio
        nLambdas nAlphas trainX trainY validX validY
      = ⟨[Event.mustUseNlambda], Status.exited (-1)⟩ := by
  unfold ElasticNetptr
  simp only [if_pos h]

theorem ElasticNetptr_status (sqrt exp log : α → α) (GetX : Nat → Nat → Nat → α)
    (mTrain n mValid : Nat) (lambda_max0 lambda_min_ratio : α) (nLambdas nAlphas : Int)
    (trainX trainY validX validY : Nat → α) (h : ¬ nLambdas ≤ 1) :
    (ElasticNetptr sqrt exp log GetX mTrain n mValid lambda_max0 lambda_min_ratio
        nLambdas nAlphas trainX trainY validX validY).status = Status.returned := by
  unfold ElasticNetptr
  simp only [if_neg h]

end Log

end ElasticNetMapd

namespace ElasticNetMapd

/-! ## The lambda sequence -/

section Lambda

/-- C2. Over real arithmetic, for `nLambdas ≥ 2`, `lambda_max0 > 0` and
`0 < lambda_min_ratio < 1`, with `lambda_max = 10 * lambda_max0` and
`lambda_min = lambda_min_ratio * lambda_max`, the values `lambda_i`,
`0 ≤ i < nLambdas`, are strictly decreasing in `i`, with `lambda_max` first and
`lambda_min` last; every record of the run, whatever its alpha index, carries
the value of its lambda index. -/
theorem lambda_strictly_decreasing (GetX : Nat → Nat → Nat → ℝ) (mTrain n mValid : Nat)
    (nAlphas : Int) (trainX trainY validX validY : Nat → ℝ)
    (nLambdas : Int) (lambda_max0 lambda_min_ratio : ℝ)
    (hN : 2 ≤ nLambdas) (h0 : 0 < lambda_max0) (hr0 : 0 < lambda_min_ratio)
    (hr1 : lambda_min_ratio < 1) :
    (∀ r, r ∈ records (ElasticNetptr Real.sqrt Real.exp Real.log GetX mTrain n mValid
          lambda_max0 lambda_min_ratio nLambdas nAlphas trainX trainY validX validY).log →
        r.lambda = lambda Real.exp Real.log (lambda_max lambda_max0)
          (lambda_min lambda_min_ratio (lambda_max lambda_max0)) nLambdas r.i)
    ∧ (∀ i j : Int, 0 ≤ i → i < j → j < nLambdas →
      lambda Real.exp Real.log (lambda_max lambda_max0)
          (lambda_min lambda_min_ratio (lambda_max lambda_max0)) nLambdas j
        < lambda Real.exp Real.log (lambda_max lambda_max0)
          (lambda_min lambda_min_ratio (lambda_max lambda_max0)) nLambdas i)
    ∧ lambda Real.exp Real.log (lambda_max lambda_max0)
          (lambda_min lambda_min_ratio (lambda_max lambda_max0)) nLambdas 0
        = lambda_max lambda_max0
    ∧ lambda Real.exp Real.log (lambda_max lambda_max0)
          (lambda_min lambda_min_ratio (lambda_max lambda_max0)) nLambdas (nLambdas - 1)
        = lambda_min lambda_min_ratio (lambda_max lambda_max0) := by
  have hmax : 0 < lambda_max lambda_max0 := by
    unfold lambda_max
    linarith
  have hmin : 0 < lambda_min lambda_min_ratio (lambda_max lambda_max0) := by
    unfold lambda_min
    exact mul_pos hr0 hmax
  have hlt : lambda_min lambda_min_ratio (lambda_max lambda_max0) < lambda_max lambda_max0 := by
    unfold lambda_min
    exact mul_lt_of_lt_one_left hmax hr1
  have hlog : Real.log (lambda_min lambda_min_ratio (lambda_max lambda_max0))
      < Real.log (lambda_max lambda_max0) := Real.log_lt_log hmin hlt
  have hd : (0 : ℝ) < (nLambdas : ℝ) - 1 := by
    have : (2 : ℝ) ≤ (nLambdas : ℝ) := by exact_mod_cast hN
    linarith
  refine ⟨?_, ?_, ?_, ?_⟩
  · intro r hr
    rw [mem_records_ElasticNetptr _ _ _ _ _ _ _ _ _ _ _ _ _ _ _ (by omega)] at hr
    obtain ⟨a, _, i, _, rfl⟩ := hr
    rfl
  · intro i j _ hij _
    unfold lambda
    apply Real.exp_lt_exp.mpr
    apply div_lt_div_of_pos_right _ hd
    have hij' : (i : ℝ) < (j : ℝ) := by exact_mod_cast hij
    nlinarith [mul_pos (sub_pos.mpr hlog) (sub_pos.mpr hij')]
  · unfold lambda
    rw [Int.cast_zero, sub_zero, mul_zero, add_zero, mul_div_assoc, div_self hd.ne', mul_one,
      Real.exp_log hmax]
  · unfold lambda
    rw [Int.cast_sub, Int.cast_one, sub_self, mul_zero, zero_add, mul_div_assoc,
      div_self hd.ne', mul_one, Real.exp_log hmin]

/-- C2 at `nLambdas = 2`, `lambda_max0 = 1`, `lambda_min_ratio = 1/2`: the two
values are `10` and `5`. -/
theorem lambda_strictly_decreasing_witness :
    lambda Real.exp Real.log (lambda_max 1) (lambda_min (1 / 2) (lambda_max 1)) 2 1
        < lambda Real.exp Real.log (lambda_max 1) (lambda_min (1 / 2) (lambda_max 1)) 2 0
    ∧ lambda Real.exp Real.log (lambda_max 1) (lambda_min (1 / 2) (lambda_max 1)) 2 0
        = lambda_max 1
    ∧ lambda Real.exp Real.log (lambda_max 1) (lambda_min (1 / 2) (lambda_max 1)) 2 (2 - 1)
        = lambda_min (1 / 2) (lambda_max 1) :=
  have h := lambda_strictly_decreasing (fun _ _ _ => 0) 1 1 0 1 (fun _ => 1) (fun _ => 1)
    (fun _ => 0) (fun _ => 0) 2 1 (1 / 2) (by decide) (by norm_num) (by norm_num) (by norm_num)
  ⟨h.2.1 0 1 (by decide) (by decide) (by decide), h.2.2.1, h.2.2.2⟩

end Lambda

end ElasticNetMapd

namespace ElasticNetMapd

/-! ## Predictions and the emitted errors -/

section Preds

variable {α : Type} [LinearOrderedField α]

/-- Reading a vector after one write. -/
theorem getD_set {β : Type} (l : List β) (i p : Nat) (v d : β) :
    (l.set i v).getD p d = if p = i ∧ i < l.length then v else l.getD p d := by
  simp only [List.getD_eq_getElem?_getD, List.getElem?_set]
  by_cases hpi : i = p
  · subst hpi
    by_cases hl : i < l.length
    · simp [hl]
    · simp [hl, List.getElem?_eq_none (Nat.le_of_not_lt hl)]
  · have hpi' : ¬ p = i := fun h => hpi h.symm
    simp [hpi, hpi']

/-- The inner loop of `preds` adds the row's products to entry `i` and leaves
the other entries alone. -/
theorem predRow_getD (n i : Nat) (f : Nat → α) (P : List α) :
    (forLoop n (fun j P => P.set i (P.getD i 0 + f j)) P).length = P.length
    ∧ ∀ p, (forLoop n (fun j P => P.set i (P.getD i 0 + f j)) P).getD p 0
      = if p = i ∧ i < P.length then P.getD i 0 + ∑ j in Finset.range n, f j
        else P.getD p 0 := by
  induction n with
  | zero =>
    refine ⟨rfl, fun p => ?_⟩
    simp only [forLoop, Finset.range_zero, Finset.sum_empty, add_zero]
    split_ifs with h
    · rw [h.1]
    · rfl
  | succ k ih =>
    obtain ⟨hlen, hget⟩ := ih
    refine ⟨by rw [forLoop_succ, List.length_set, hlen], fun p => ?_⟩
    rw [forLoop_succ, getD_set, hlen, hget i, hget p, Finset.sum_range_succ]
    by_cases h : p = i ∧ i < P.length
    · simp [h, h.2, add_assoc]
    · simp [h]

/-- Entry `i` of the prediction vector is the inner product of the coefficient
vector with row `i` of the row-major matrix. -/
theorem preds_getD (m n : Nat) (x X : Nat → α) :
    (preds m n x X).length = m
    ∧ ∀ i, i < m → (preds m n x X).getD i 0 = ∑ j in Finset.range n, x j * X (i * n + j) := by
  have key : ∀ k, k ≤ m →
      (forLoop k (fun i P =>
          forLoop n (fun j P => P.set i (P.getD i 0 + x j * X (i * n + j))) P)
        (List.replicate m 0)).length = m
      ∧ ∀ i, i < m →
        (forLoop k (fun i P =>
            forLoop n (fun j P => P.set i (P.getD i 0 + x j * X (i * n + j))) P)
          (List.replicate m 0)).getD i 0
          = if i < k then ∑ j in Finset.range n, x j * X (i * n + j) else 0 := by
    intro k
    induction k with
    | zero =>
      intro _
      refine ⟨by simp [forLoop], fun i hi => ?_⟩
      simp [forLoop, List.getD_eq_getElem?_getD, hi]
    | succ k ih =>
      intro hk
      obtain ⟨hlen, hget⟩ := ih (Nat.le_of_succ_le hk)
      have hrow := predRow_getD n k (fun j => x j * X (k * n + j))
        (forLoop k (fun i P =>
          forLoop n (fun j P => P.set i (P.getD i 0 + x j * X (i * n + j))) P)
        (List.replicate m 0))
      refine ⟨by rw [forLoop_succ, hrow.1, hlen], fun i hi => ?_⟩
      rw [forLoop_succ, hrow.2 i, hlen, hget i hi, hget k (by omega)]
      by_cases hik : i = k
      · subst hik
        have : i < m := hi
        simp [this]
      · have h1 : ¬ (i = k ∧ k < m) := fun h => hik h.1
        rw [if_neg h1]
        by_cases hlt : i < k
        · rw [if_pos hlt, if_pos (Nat.lt_succ_of_lt hlt)]
        · rw [if_neg hlt, if_neg (by omega)]
  obtain ⟨hlen, hget⟩ := key m le_rfl
  refine ⟨hlen, fun i hi => ?_⟩
  have := hget i hi
  rw [if_pos hi] at this
  exact this

/-- The error `getRMSE` computes from the prediction vector is the
specification's root-mean-square error. -/
theorem getRMSE_preds (sqrt : α → α) (m n : Nat) (x X Y : Nat → α) :
    getRMSE sqrt m (fun k => (preds m n x X).getD k 0) Y = rmseSpec sqrt m n x X Y := by
  rw [getRMSE_eq]
  unfold rmseSpec
  by_cases hm : m = 0
  · rw [if_pos hm, if_pos hm]
  · rw [if_neg hm, if_neg hm]
    have hsum : ∑ i in Finset.range m,
          ((preds m n x X).getD i 0 - Y i) * ((preds m n x X).getD i 0 - Y i)
        = ∑ i in Finset.range m, ((∑ j in Finset.range n, x j * X (i * n + j)) - Y i) ^ 2 := by
      apply Finset.sum_congr rfl
      intro i hi
      rw [(preds_getD m n x X).2 i (Finset.mem_range.mp hi), sq]
    rw [hsum, one_div, div_eq_inv_mul]

/-- C5. Every record emitted by `ElasticNetptr` carries, for the coefficient
vector `x` the solver returned at its grid point, `trainRMSE =
sqrt((1/mTrain) * Σ_i (pred_i - trainY[i])^2)` with `pred_i = Σ_j x[j] *
trainX[i*n+j]`, and when `mValid > 0` the same expression over `validX`,
`validY`, `mValid` as `validRMSE`; each is a function of its own split only. -/
theorem record_rmse (sqrt exp log : α → α) (GetX : Nat → Nat → Nat → α)
    (mTrain n mValid : Nat) (lambda_max0 lambda_min_ratio : α) (nLambdas nAlphas : Int)
    (trainX trainY validX validY : Nat → α) (r : Record α)
    (hr : r ∈ records (ElasticNetptr sqrt exp log GetX mTrain n mValid lambda_max0
        lambda_min_ratio nLambdas nAlphas trainX trainY validX validY).log) :
    r.trainRMSE = rmseSpec sqrt mTrain n (GetX r.a r.i) trainX trainY
    ∧ (0 < mValid → r.validRMSE = rmseSpec sqrt mValid n (GetX r.a r.i) validX validY) := by
  by_cases h : nLambdas ≤ 1
  · rw [ElasticNetptr_rejected _ _ _ _ _ _ _ _ _ _ _ _ _ _ _ h] at hr
    simp [records] at hr
  · rw [mem_records_ElasticNetptr _ _ _ _ _ _ _ _ _ _ _ _ _ _ _ h] at hr
    obtain ⟨a, _, i, _, rfl⟩ := hr
    refine ⟨getRMSE_preds _ _ _ _ _ _, fun hv => ?_⟩
    simp only [gt_iff_lt, if_pos hv]
    exact getRMSE_preds _ _ _ _ _ _

end Preds

end ElasticNetMapd

namespace ElasticNetMapd

/-! ## Rounding to `double` and the split sizes -/

section Sizes

variable {α : Type} [LinearOrderedField α]

theorem two_zpow_pos (e : Int) : (0 : ℚ) < 2 ^ e := zpow_pos (by norm_num) e

theorem two_zpow_le {a b : Int} (h : a ≤ b) : (2 : ℚ) ^ a ≤ 2 ^ b :=
  zpow_le_zpow_right₀ (by norm_num) h

theorem two_zpow_lt {a b : Int} (h : a < b) : (2 : ℚ) ^ a < 2 ^ b :=
  zpow_lt_zpow_right₀ (by norm_num) h

theorem two_zpow_add (a b : Int) : (2 : ℚ) ^ a * 2 ^ b = 2 ^ (a + b) :=
  (zpow_add₀ (by norm_num) a b).symm

theorem roundTiesEven_le_add (q : ℚ) : (roundTiesEven q : ℚ) ≤ q + 1 / 2 := by
  have h1 := Int.floor_le q
  unfold roundTiesEven
  split_ifs with ha hb hc
  · linarith
  · push_cast; linarith
  · linarith
  · push_cast; linarith

theorem sub_le_roundTiesEven (q : ℚ) : q - 1 / 2 ≤ (roundTiesEven q : ℚ) := by
  have h1 := Int.floor_le q
  have h2 := Int.lt_floor_add_one q
  unfold roundTiesEven
  split_ifs with ha hb hc
  · linarith
  · push_cast; linarith
  · linarith
  · push_cast; linarith

theorem roundTiesEven_le_of_le (q : ℚ) (N : Int) (h : q ≤ N) : roundTiesEven q ≤ N := by
  have h1 : ⌊q⌋ ≤ N := Int.floor_le_iff.mpr (lt_of_le_of_lt h (by linarith))
  have h2 : q - ⌊q⌋ ≥ 1 / 2 → ⌊q⌋ + 1 ≤ N := by
    intro hf
    have : (⌊q⌋ : ℚ) < N := by linarith
    have : ⌊q⌋ < N := by exact_mod_cast this
    omega
  unfold roundTiesEven
  split_ifs with ha hb hc
  · exact h1
  · exact h2 (by linarith)
  · exact h1
  · exact h2 (by linarith)

theorem le_roundTiesEven_of_le (q : ℚ) (N : Int) (h : (N : ℚ) ≤ q) : N ≤ roundTiesEven q := by
  have h1 : N ≤ ⌊q⌋ := Int.le_floor.mpr h
  unfold roundTiesEven
  split_ifs <;> omega

theorem roundDouble_le_add (x : ℚ) : roundDouble x ≤ x + 2 ^ ulpExp x / 2 := by
  have hp := two_zpow_pos (ulpExp x)
  have h := roundTiesEven_le_add (x / 2 ^ ulpExp x)
  unfold roundDouble
  calc (roundTiesEven (x / 2 ^ ulpExp x) : ℚ) * 2 ^ ulpExp x
      ≤ (x / 2 ^ ulpExp x + 1 / 2) * 2 ^ ulpExp x := mul_le_mul_of_nonneg_right h hp.le
    _ = x + 2 ^ ulpExp x / 2 := by field_simp; ring

theorem roundDouble_le_grid (x : ℚ) (N : Int) (h : x ≤ N * 2 ^ ulpExp x) :
    roundDouble x ≤ N * 2 ^ ulpExp x := by
  have hp := two_zpow_pos (ulpExp x)
  have h1 : roundTiesEven (x / 2 ^ ulpExp x) ≤ N :=
    roundTiesEven_le_of_le _ _ ((div_le_iff₀ hp).mpr h)
  unfold roundDouble
  exact mul_le_mul_of_nonneg_right (by exact_mod_cast h1) hp.le

theorem grid_le_roundDouble (x : ℚ) (N : Int) (h : N * 2 ^ ulpExp x ≤ x) :
    N * 2 ^ ulpExp x ≤ roundDouble x := by
  have hp := two_zpow_pos (ulpExp x)
  have h1 : N ≤ roundTiesEven (x / 2 ^ ulpExp x) :=
    le_roundTiesEven_of_le _ _ ((le_div_iff₀ hp).mpr h)
  unfold roundDouble
  exact mul_le_mul_of_nonneg_right (by exact_mod_cast h1) hp.le

theorem roundDouble_zero : roundDouble 0 = 0 := by
  simp [roundDouble, roundTiesEven]

theorem two_zpow_log_le (x : ℚ) (hx : 0 < x) : (2 : ℚ) ^ Int.log 2 x ≤ x := by
  have := Int.zpow_log_le_self (b := 2) (by norm_num) hx
  simpa using this

theorem lt_two_zpow_log (x : ℚ) : x < (2 : ℚ) ^ (Int.log 2 x + 1) := by
  have := Int.lt_zpow_succ_log_self (b := 2) (by norm_num) x
  simpa using this

theorem log_lt_of_lt (x : ℚ) (k : Int) (hx : 0 < x) (h : x < 2 ^ k) : Int.log 2 x < k := by
  have := (Int.lt_zpow_iff_log_lt (b := 2) (by norm_num) hx (x := k)).mp (by simpa using h)
  exact this

theorem le_log_of_le (x : ℚ) (k : Int) (hx : 0 < x) (h : 2 ^ k ≤ x) : k ≤ Int.log 2 x := by
  have := (Int.zpow_le_iff_le_log (b := 2) (by norm_num) hx (x := k)).mp (by simpa using h)
  exact this

theorem ulpExp_eq (x : ℚ) (k : Int) (hk : -1022 ≤ k) (hx : 0 < x) (h1 : 2 ^ k ≤ x)
    (h2 : x < 2 ^ (k + 1)) : ulpExp x = k - 52 := by
  have ha := le_log_of_le x k hx h1
  have hb := log_lt_of_lt x (k + 1) hx h2
  unfold ulpExp
  rw [abs_of_pos hx, max_eq_left (by omega)]
  omega


theorem pow52_mul (e : Int) : ((2 ^ 52 : Int) : ℚ) * 2 ^ (e - 52) = 2 ^ e := by
  have h : ((2 ^ 52 : Int) : ℚ) = (2 : ℚ) ^ (52 : Int) := by norm_num
  rw [h, two_zpow_add]
  congr 1
  ring

theorem pow53_mul (e : Int) : ((2 ^ 53 : Int) : ℚ) * 2 ^ (e - 52) = 2 ^ (e + 1) := by
  have h : ((2 ^ 53 : Int) : ℚ) = (2 : ℚ) ^ (53 : Int) := by norm_num
  rw [h, two_zpow_add]
  congr 1
  ring

theorem roundDouble_nonneg (x : ℚ) (hx : 0 ≤ x) : 0 ≤ roundDouble x := by
  have h := grid_le_roundDouble x 0 (by simpa using hx)
  simpa using h

/-- A `double` below `1` is at most `1 - 2^-53`. -/
theorem double_le_pred_one (vf : ℚ) (hd : roundDouble vf = vf) (h1 : vf < 1) :
    vf ≤ 1 - 1 / 2 ^ 53 := by
  by_cases hhalf : vf ≤ 1 / 2
  · have : (1 : ℚ) / 2 ≤ 1 - 1 / 2 ^ 53 := by norm_num
    linarith
  · have hx : 0 < vf := by linarith
    have he : ulpExp vf = -1 - 52 :=
      ulpExp_eq vf (-1) (by norm_num) hx (by norm_num; linarith) (by norm_num; exact h1)
    have hN : (roundTiesEven (vf / 2 ^ ulpExp vf) : ℚ) * 2 ^ ulpExp vf = vf := hd
    rw [he] at hN
    have hlt : (roundTiesEven (vf / 2 ^ (-1 - 52 : Int)) : ℚ) < ((2 ^ 53 : Int) : ℚ) := by
      have h2 : (roundTiesEven (vf / 2 ^ (-1 - 52 : Int)) : ℚ) * 2 ^ (-1 - 52 : Int) < 1 := by
        rw [hN]; exact h1
      norm_num at h2 ⊢
      linarith
    have hle : roundTiesEven (vf / 2 ^ (-1 - 52 : Int)) ≤ 2 ^ 53 - 1 := by
      have : roundTiesEven (vf / 2 ^ (-1 - 52 : Int)) < 2 ^ 53 := by exact_mod_cast hlt
      omega
    have hle' : (roundTiesEven (vf / 2 ^ (-1 - 52 : Int)) : ℚ) ≤ 2 ^ 53 - 1 := by
      exact_mod_cast hle
    rw [← hN]
    norm_num at hle' ⊢
    linarith

/-- The `double` product of `y ≥ 1` with a factor of at most `1 - 2^-53` is
below `y`. -/
theorem roundDouble_mul_lt (y vf : ℚ) (hy : 1 ≤ y) (h0 : 0 ≤ vf) (hv : vf ≤ 1 - 1 / 2 ^ 53) :
    roundDouble (y * vf) < y := by
  have hx0 : 0 ≤ y * vf := mul_nonneg (by linarith) h0
  rcases eq_or_lt_of_le hx0 with hz | hx
  · rw [← hz, roundDouble_zero]
    linarith
  · have hb := roundDouble_le_add (y * vf)
    have hxy : y * vf ≤ y * (1 - 1 / 2 ^ 53) := mul_le_mul_of_nonneg_left hv (by linarith)
    by_cases hk : -1022 ≤ Int.log 2 (y * vf)
    · have he : ulpExp (y * vf) = Int.log 2 (y * vf) - 52 := by
        unfold ulpExp
        rw [abs_of_pos hx, max_eq_left hk]
      have hu : (2 : ℚ) ^ ulpExp (y * vf) ≤ y * vf * (1 / 2 ^ 52) := by
        rw [he, sub_eq_add_neg, ← two_zpow_add]
        have h52 : (2 : ℚ) ^ (-52 : Int) = 1 / 2 ^ 52 := by norm_num
        rw [h52]
        exact mul_le_mul_of_nonneg_right (two_zpow_log_le _ hx) (by norm_num)
      have hc : (0 : ℚ) < 1 / 2 ^ 53 := by norm_num
      have h3 : roundDouble (y * vf) ≤ y * vf * (1 + 1 / 2 ^ 53) := by
        have : y * vf * (1 / 2 ^ 52) / 2 = y * vf * (1 / 2 ^ 53) := by ring
        linarith
      have h4 : y * vf * (1 + 1 / 2 ^ 53) ≤ y * (1 - 1 / 2 ^ 53) * (1 + 1 / 2 ^ 53) :=
        mul_le_mul_of_nonneg_right hxy (by norm_num)
      have h5 : y * (1 - 1 / 2 ^ 53) * (1 + 1 / 2 ^ 53) < y := by
        have : y * (1 - 1 / 2 ^ 53) * (1 + 1 / 2 ^ 53) = y - y * (1 / 2 ^ 53 * (1 / 2 ^ 53)) := by
          ring
        rw [this]
        have : 0 < y * (1 / 2 ^ 53 * (1 / 2 ^ 53)) := by positivity
        linarith
      linarith
    · have hk' : Int.log 2 (y * vf) + 1 ≤ -1 := by omega
      have he : ulpExp (y * vf) = -1022 - 52 := by
        unfold ulpExp
        rw [abs_of_pos hx, max_eq_right (by omega)]
      have h1 : y * vf < 2 ^ (-1 : Int) :=
        lt_of_lt_of_le (lt_two_zpow_log _) (two_zpow_le hk')
      have h2 : (2 : ℚ) ^ ulpExp (y * vf) ≤ 2 ^ (-1 : Int) := by
        rw [he]
        exact two_zpow_le (by norm_num)
      have h3 : (2 : ℚ) ^ (-1 : Int) = 1 / 2 := by norm_num
      rw [h3] at h1 h2
      linarith

/-- A `double` product that falls below the `double` nearest to `z` falls below
`z` itself. -/
theorem roundDouble_lt_of_lt (z x : ℚ) (hz : 1 ≤ z) (hx0 : 0 ≤ x)
    (hx : roundDouble x < roundDouble z) (hxz : x < roundDouble z) : roundDouble x < z := by
  have hzpos : 0 < z := by linarith
  have hk0 : 0 ≤ Int.log 2 z := le_log_of_le z 0 hzpos (by simpa using hz)
  have hz1 := two_zpow_log_le z hzpos
  have hz2 := lt_two_zpow_log z
  have he : ulpExp z = Int.log 2 z - 52 := ulpExp_eq z _ (by omega) hzpos hz1 hz2
  have hup := two_zpow_pos (Int.log 2 z - 52)
  have hzadd : roundDouble z ≤ z + 2 ^ (Int.log 2 z - 52) / 2 := by
    have := roundDouble_le_add z
    rwa [he] at this
  have hztop : roundDouble z ≤ 2 ^ (Int.log 2 z + 1) := by
    have h := roundDouble_le_grid z (2 ^ 53) (by rw [he, pow53_mul]; exact hz2.le)
    rwa [he, pow53_mul] at h
  by_cases hlt : roundDouble x < 2 ^ Int.log 2 z
  · linarith
  · have hge : (2 : ℚ) ^ Int.log 2 z ≤ roundDouble x := not_lt.mp hlt
    have hk52 := pow52_mul (Int.log 2 z)
    have hxpos : 0 < x := by
      rcases eq_or_lt_of_le hx0 with h | h
      · rw [← h, roundDouble_zero] at hge
        have := two_zpow_pos (Int.log 2 z)
        linarith
      · exact h
    have hkx : Int.log 2 x ≤ Int.log 2 z := by
      have := log_lt_of_lt x (Int.log 2 z + 1) hxpos (lt_of_lt_of_le hxz hztop)
      omega
    have hgrid : ∃ N : Int, roundDouble x = N * 2 ^ (Int.log 2 z - 52) := by
      rcases eq_or_lt_of_le hkx with heq | hltk
      · have hex : ulpExp x = Int.log 2 z - 52 := by
          rw [← heq]
          exact ulpExp_eq x _ (by omega) hxpos (two_zpow_log_le x hxpos) (lt_two_zpow_log x)
        refine ⟨roundTiesEven (x / 2 ^ (Int.log 2 z - 52)), ?_⟩
        unfold roundDouble
        rw [hex]
      · refine ⟨2 ^ 52, ?_⟩
        rw [hk52]
        apply le_antisymm _ hge
        have hpow : (((2 ^ 53 : Int) : ℚ)) * 2 ^ ulpExp x
            = 2 ^ (max (Int.log 2 |x|) (-1022) + 1) := by
          unfold ulpExp
          exact pow53_mul _
        have hle := roundDouble_le_grid x (2 ^ 53) (by
          rw [hpow, abs_of_pos hxpos]
          exact (lt_two_zpow_log x).le.trans (two_zpow_le (by omega)))
        rw [hpow, abs_of_pos hxpos] at hle
        exact hle.trans (two_zpow_le (by omega))
    obtain ⟨N, hN⟩ := hgrid
    have hM : roundDouble z
        = (roundTiesEven (z / 2 ^ (Int.log 2 z - 52)) : ℚ) * 2 ^ (Int.log 2 z - 52) := by
      unfold roundDouble
      rw [he]
    have hNM : N < roundTiesEven (z / 2 ^ (Int.log 2 z - 52)) := by
      rw [hN, hM] at hx
      have := lt_of_mul_lt_mul_right hx hup.le
      exact_mod_cast this
    have hNM' : (N : ℚ) + 1 ≤ (roundTiesEven (z / 2 ^ (Int.log 2 z - 52)) : ℚ) := by
      exact_mod_cast hNM
    have hstep : roundDouble x + 2 ^ (Int.log 2 z - 52) ≤ roundDouble z := by
      rw [hN, hM]
      calc (N : ℚ) * 2 ^ (Int.log 2 z - 52) + 2 ^ (Int.log 2 z - 52)
          = ((N : ℚ) + 1) * 2 ^ (Int.log 2 z - 52) := by ring
        _ ≤ _ := mul_le_mul_of_nonneg_right hNM' hup.le
    linarith


theorem ulpExp_nonpos (x : ℚ) (hx0 : 0 ≤ x) (hx : x < 2 ^ 53) : ulpExp x ≤ 0 := by
  unfold ulpExp
  rw [abs_of_nonneg hx0]
  rcases eq_or_lt_of_le hx0 with h | h
  · rw [← h, Int.log_zero_right]
    decide
  · have := log_lt_of_lt x 53 h (by norm_num; linarith)
    have h2 : max (Int.log 2 x) (-1022) ≤ 52 := max_le (by omega) (by decide)
    omega

/-- Below `2^53` every integer lies on the grid of the `double`s around `x`. -/
theorem int_on_grid (x : ℚ) (K : Int) (he : ulpExp x ≤ 0) :
    ∃ N : Int, (N : ℚ) * 2 ^ ulpExp x = K := by
  refine ⟨K * 2 ^ (-ulpExp x).toNat, ?_⟩
  push_cast
  rw [mul_assoc, ← zpow_natCast, Int.toNat_of_nonneg (by omega), two_zpow_add]
  simp

theorem roundDouble_int (K : Int) (h0 : 0 ≤ K) (h : K < 2 ^ 53) : roundDouble K = K := by
  have hK0 : (0 : ℚ) ≤ (K : ℚ) := by exact_mod_cast h0
  have hK : (K : ℚ) < 2 ^ 53 := by exact_mod_cast h
  obtain ⟨N, hN⟩ := int_on_grid (K : ℚ) K (ulpExp_nonpos _ hK0 hK)
  apply le_antisymm
  · have := roundDouble_le_grid (K : ℚ) N hN.ge
    rwa [hN] at this
  · have := grid_le_roundDouble (K : ℚ) N hN.le
    rwa [hN] at this

/-- A `size_t` below `2^53` converts to `double` exactly. -/
theorem roundDouble_natCast (n : Nat) (h : n < 2 ^ 53) : roundDouble (n : ℚ) = n := by
  have := roundDouble_int (n : Int) (Int.natCast_nonneg n) (by exact_mod_cast h)
  simpa using this

/-- Rounding a value below `2^53` to `double` moves its integer part up by one
at most, and never down. -/
theorem floor_roundDouble (x : ℚ) (hx0 : 0 ≤ x) (hx : x < 2 ^ 53) :
    ⌊x⌋₊ ≤ ⌊roundDouble x⌋₊ ∧ ⌊roundDouble x⌋₊ ≤ ⌊x⌋₊ + 1 := by
  have he := ulpExp_nonpos x hx0 hx
  obtain ⟨N, hN⟩ := int_on_grid x (⌊x⌋₊ : Int) he
  obtain ⟨N', hN'⟩ := int_on_grid x ((⌊x⌋₊ : Int) + 1) he
  have h1 : ((⌊x⌋₊ : Int) : ℚ) ≤ roundDouble x := by
    have := grid_le_roundDouble x N (by rw [hN]; exact_mod_cast Nat.floor_le hx0)
    rwa [hN] at this
  have h2 : roundDouble x ≤ (((⌊x⌋₊ : Int) + 1 : Int) : ℚ) := by
    have := roundDouble_le_grid x N' (by
      rw [hN']
      push_cast
      exact (Nat.lt_floor_add_one x).le)
    rwa [hN'] at this
  constructor
  · apply Nat.le_floor
    exact_mod_cast h1
  · have h3 : roundDouble x < ((⌊x⌋₊ + 1 + 1 : Nat) : ℚ) := by
      push_cast at h2 ⊢
      linarith
    have := (Nat.floor_lt (roundDouble_nonneg x hx0)).mpr h3
    omega

theorem roundTiesEven_eq (q : ℚ) (N : Int) (h1 : (N : ℚ) - 1 / 2 < q) (h2 : q < N + 1 / 2) :
    roundTiesEven q = N := by
  have ha := roundTiesEven_le_add q
  have hb := sub_le_roundTiesEven q
  have h3 : (roundTiesEven q : ℚ) < N + 1 := by linarith
  have h4 : (N : ℚ) - 1 < roundTiesEven q := by linarith
  have h5 : roundTiesEven q < N + 1 := by exact_mod_cast h3
  have h6 : N - 1 < roundTiesEven q := by exact_mod_cast h4
  omega

/-- The `double` nearest to `x` when `x` lies in the binade of `2^k` and is
not half-way between two `double`s. -/
theorem roundDouble_eval (x : ℚ) (k N : Int) (hk : -1022 ≤ k) (hx : 0 < x) (h1 : 2 ^ k ≤ x)
    (h2 : x < 2 ^ (k + 1)) (h3 : (N : ℚ) - 1 / 2 < x / 2 ^ (k - 52))
    (h4 : x / 2 ^ (k - 52) < N + 1 / 2) : roundDouble x = N * 2 ^ (k - 52) := by
  unfold roundDouble
  rw [ulpExp_eq x k hk hx h1 h2, roundTiesEven_eq _ N h3 h4]

theorem one_le_roundDouble (z : ℚ) (hz : 1 ≤ z) : 1 ≤ roundDouble z := by
  have hpos : 0 < z := by linarith
  have hlog := le_log_of_le z 0 hpos (by simpa using hz)
  have he := ulpExp_eq z _ (by omega) hpos (two_zpow_log_le _ hpos) (lt_two_zpow_log _)
  have h := grid_le_roundDouble z (2 ^ 52) (by
    rw [he, pow52_mul]
    exact two_zpow_log_le _ hpos)
  rw [he, pow52_mul] at h
  have h2 : (2 : ℚ) ^ (0 : Int) ≤ 2 ^ Int.log 2 z := two_zpow_le hlog
  rw [zpow_zero] at h2
  linarith

theorem mValidOf_lt (m : Nat) (validFraction : ℚ) (hm : 1 ≤ m)
    (hd : roundDouble validFraction = validFraction) (h0 : 0 ≤ validFraction)
    (h1 : validFraction < 1) : mValidOf m validFraction < m := by
  have hm1 : (1 : ℚ) ≤ (m : ℚ) := by exact_mod_cast hm
  have hmd : 1 ≤ roundDouble (m : ℚ) := one_le_roundDouble _ hm1
  have hv := double_le_pred_one validFraction hd h1
  have hA := roundDouble_mul_lt (roundDouble (m : ℚ)) validFraction hmd h0 hv
  have hxz : roundDouble (m : ℚ) * validFraction < roundDouble (m : ℚ) := by
    have : roundDouble (m : ℚ) * validFraction < roundDouble (m : ℚ) * 1 :=
      mul_lt_mul_of_pos_left h1 (by linarith)
    simpa using this
  have hB := roundDouble_lt_of_lt (m : ℚ) (roundDouble (m : ℚ) * validFraction) hm1
    (mul_nonneg (by linarith) h0) hA hxz
  unfold mValidOf
  exact (Nat.floor_lt (roundDouble_nonneg _ (mul_nonneg (by linarith) h0))).mpr hB

theorem mValidOf_zero (m : Nat) : mValidOf m 0 = 0 := by
  simp [mValidOf, roundDouble_zero]

theorem mValidOf_le (m : Nat) (validFraction : ℚ)
    (hd : roundDouble validFraction = validFraction) (h0 : 0 ≤ validFraction)
    (h1 : validFraction < 1) : mValidOf m validFraction ≤ m := by
  rcases Nat.eq_zero_or_pos m with hz | hpos
  · subst hz
    simp [mValidOf, roundDouble_zero]
  · exact (mValidOf_lt m validFraction hpos hd h0 h1).le

theorem mTrainOf_eq (m mValid : Nat) (hm : m < 2 ^ 64) (hv : mValid ≤ m) :
    mTrainOf m mValid = m - mValid := by
  unfold mTrainOf
  omega

/-- A value half-way between two `double`s goes to the one with the even last
digit: `2^53 + 1` converts to `2^53`, `2^53 + 3` to `2^53 + 4`. -/
theorem roundDouble_tie :
    roundDouble (9007199254740993 : ℚ) = 9007199254740992
    ∧ roundDouble (9007199254740995 : ℚ) = 9007199254740996 := by
  have e1 : ulpExp (9007199254740993 : ℚ) = 53 - 52 :=
    ulpExp_eq _ 53 (by decide) (by norm_num) (by norm_num) (by norm_num)
  have e2 : ulpExp (9007199254740995 : ℚ) = 53 - 52 :=
    ulpExp_eq _ 53 (by decide) (by norm_num) (by norm_num) (by norm_num)
  have f1 : ⌊(9007199254740993 : ℚ) / 2 ^ (53 - 52 : Int)⌋ = 4503599627370496 := by
    rw [Int.floor_eq_iff]
    norm_num
  have f2 : ⌊(9007199254740995 : ℚ) / 2 ^ (53 - 52 : Int)⌋ = 4503599627370497 := by
    rw [Int.floor_eq_iff]
    norm_num
  constructor
  · unfold roundDouble roundTiesEven
    rw [e1, f1]
    norm_num
  · unfold roundDouble roundTiesEven
    rw [e2, f2]
    norm_num

/-- The `double` nearest to `0.3` is `5404319552844595 / 2^54`. -/
theorem threeTenths_double :
    roundDouble (5404319552844595 / 18014398509481984) = 5404319552844595 / 18014398509481984 := by
  rw [roundDouble_eval (5404319552844595 / 18014398509481984) (-2) 5404319552844595
    (by decide)] <;> norm_num

/-- The `double` nearest to `0.2` is `3602879701896397 / 2^54`. -/
theorem oneFifth_double :
    roundDouble (3602879701896397 / 18014398509481984) = 3602879701896397 / 18014398509481984 := by
  rw [roundDouble_eval (3602879701896397 / 18014398509481984) (-3) 7205759403792794
    (by decide)] <;> norm_num

/-- C4, as stated over exact arithmetic, fails: for `m = 10` and `validFraction`
the `double` nearest to `0.3` (a `double` in `[0,1)`), the `double` product is
exactly `3` and `mValid = 3`, while the floor of `m * validFraction` is `2`. -/
theorem mValid_not_floor :
    roundDouble (5404319552844595 / 18014398509481984) = 5404319552844595 / 18014398509481984
    ∧ (0 : ℚ) ≤ 5404319552844595 / 18014398509481984
    ∧ (5404319552844595 / 18014398509481984 : ℚ) < 1
    ∧ mValidOf 10 (5404319552844595 / 18014398509481984) = 3
    ∧ ⌊((10 : Nat) : ℚ) * (5404319552844595 / 18014398509481984)⌋₊ = 2 := by
  refine ⟨threeTenths_double, by norm_num, by norm_num, ?_, ?_⟩
  · unfold mValidOf
    rw [roundDouble_natCast 10 (by norm_num)]
    rw [roundDouble_eval _ 1 6755399441055744 (by decide)] <;> norm_num
  · rw [Nat.floor_eq_iff (by norm_num)]
    norm_num

/-- C4, amended. For `m` a `size_t` and `validFraction` a `double` in `[0,1)`:
`mValid ≤ m`, `mTrain = m - mValid` and `mTrain + mValid = m`; for `m < 2^53`,
`mValid` is the floor of `m * validFraction` or that floor plus one, and it is
the floor when the exact product is a `double`; `validFraction = 0` gives
`mValid = 0`; and with `mValid = 0` every record `ElasticNetptr` emits has
`validRMSE = -1`. -/
theorem split_sizes (sqrt exp log : α → α) (GetX : Nat → Nat → Nat → α)
    (mTrain n : Nat) (lambda_max0 lambda_min_ratio : α) (nLambdas nAlphas : Int)
    (trainX trainY validX validY : Nat → α)
    (m : Nat) (validFraction : ℚ) (hm : m < 2 ^ 64)
    (hd : roundDouble validFraction = validFraction) (h0 : 0 ≤ validFraction)
    (h1 : validFraction < 1) :
    mValidOf m validFraction ≤ m
    ∧ mTrainOf m (mValidOf m validFraction) = m - mValidOf m validFraction
    ∧ mTrainOf m (mValidOf m validFraction) + mValidOf m validFraction = m
    ∧ (m < 2 ^ 53 →
        ⌊(m : ℚ) * validFraction⌋₊ ≤ mValidOf m validFraction
        ∧ mValidOf m validFraction ≤ ⌊(m : ℚ) * validFraction⌋₊ + 1
        ∧ (roundDouble ((m : ℚ) * validFraction) = (m : ℚ) * validFraction →
            mValidOf m validFraction = ⌊(m : ℚ) * validFraction⌋₊))
    ∧ (validFraction = 0 → mValidOf m validFraction = 0)
    ∧ ∀ r, r ∈ records (ElasticNetptr sqrt exp log GetX mTrain n 0 lambda_max0
          lambda_min_ratio nLambdas nAlphas trainX trainY validX validY).log →
        r.validRMSE = some (-1) := by
  have hle := mValidOf_le m validFraction hd h0 h1
  have htr := mTrainOf_eq m (mValidOf m validFraction) hm hle
  refine ⟨hle, htr, ?_, ?_, ?_, ?_⟩
  · rw [htr]
    omega
  · intro h53
    have hx0 : (0 : ℚ) ≤ (m : ℚ) * validFraction := mul_nonneg (Nat.cast_nonneg m) h0
    have hx : (m : ℚ) * validFraction < 2 ^ 53 := by
      have h2 : (m : ℚ) * validFraction ≤ (m : ℚ) * 1 :=
        mul_le_mul_of_nonneg_left h1.le (Nat.cast_nonneg m)
      have h3 : (m : ℚ) < 2 ^ 53 := by exact_mod_cast h53
      linarith
    have hfl := floor_roundDouble _ hx0 hx
    unfold mValidOf
    rw [roundDouble_natCast m h53]
    refine ⟨hfl.1, hfl.2, fun hex => ?_⟩
    rw [hex]
  · intro hz
    rw [hz]
    exact mValidOf_zero m
  · intro r hr
    by_cases h : nLambdas ≤ 1
    · rw [ElasticNetptr_rejected _ _ _ _ _ _ _ _ _ _ _ _ _ _ _ h] at hr
      simp [records] at hr
    · rw [mem_records_ElasticNetptr _ _ _ _ _ _ _ _ _ _ _ _ _ _ _ h] at hr
      obtain ⟨a, _, i, _, rfl⟩ := hr
      simp

end Sizes

end ElasticNetMapd

namespace ElasticNetMapd

/-! ## The head/tail split -/

section SplitRows

variable {α : Type} [LinearOrderedField α]

/-- Two vectors of one length that read alike are equal. -/
theorem eq_of_getD_eq {β : Type} (d : β) (l₁ l₂ : List β) (hl : l₁.length = l₂.length)
    (h : ∀ p, p < l₁.length → l₁.getD p d = l₂.getD p d) : l₁ = l₂ := by
  apply List.ext_getElem hl
  intro p h₁ h₂
  have := h p h₁
  rwa [List.getD_eq_getElem _ _ h₁, List.getD_eq_getElem _ _ h₂] at this

/-- The column loop of the split writes `g j` at `base + j` for `j < n`. -/
theorem copyRow_getD (n base : Nat) (g : Nat → α) (X : List α) :
    (forLoop n (fun j X => X.set (base + j) (g j)) X).length = X.length
    ∧ ∀ p, (forLoop n (fun j X => X.set (base + j) (g j)) X).getD p 0
      = if base ≤ p ∧ p < base + n ∧ p < X.length then g (p - base) else X.getD p 0 := by
  induction n with
  | zero =>
    refine ⟨rfl, fun p => ?_⟩
    have : ¬ (base ≤ p ∧ p < base + 0 ∧ p < X.length) := by omega
    rw [if_neg this]
    rfl
  | succ k ih =>
    obtain ⟨hlen, hget⟩ := ih
    refine ⟨by rw [forLoop_succ, List.length_set, hlen], fun p => ?_⟩
    rw [forLoop_succ, getD_set, hlen, hget p]
    by_cases h1 : p = base + k ∧ base + k < X.length
    · have h2 : base ≤ p ∧ p < base + (k + 1) ∧ p < X.length := by omega
      rw [if_pos h1, if_pos h2]
      congr 1
      omega
    · rw [if_neg h1]
      by_cases h3 : base ≤ p ∧ p < base + k ∧ p < X.length
      · rw [if_pos h3, if_pos (by omega)]
      · rw [if_neg h3, if_neg (by omega)]

/-- The state of the row loop of the split after `k` of its `rows` rows. -/
theorem copyRows_inv (A b : List α) (off rows n : Nat) (k : Nat) (hk : k ≤ rows) :
    (forLoop k (fun i (s : List α × List α) =>
        (forLoop n (fun j X => X.set (i * n + j) (A.getD ((off + i) * n + j) 0)) s.1,
          s.2.set i (b.getD (off + i) 0)))
      (List.replicate (rows * n) 0, List.replicate rows 0)).1.length = rows * n
    ∧ (forLoop k (fun i (s : List α × List α) =>
        (forLoop n (fun j X => X.set (i * n + j) (A.getD ((off + i) * n + j) 0)) s.1,
          s.2.set i (b.getD (off + i) 0)))
      (List.replicate (rows * n) 0, List.replicate rows 0)).2.length = rows
    ∧ (∀ p, p < rows * n →
        (forLoop k (fun i (s : List α × List α) =>
          (forLoop n (fun j X => X.set (i * n + j) (A.getD ((off + i) * n + j) 0)) s.1,
            s.2.set i (b.getD (off + i) 0)))
        (List.replicate (rows * n) 0, List.replicate rows 0)).1.getD p 0
          = if p < k * n then A.getD (off * n + p) 0 else 0)
    ∧ (∀ i, i < rows →
        (forLoop k (fun i (s : List α × List α) =>
          (forLoop n (fun j X => X.set (i * n + j) (A.getD ((off + i) * n + j) 0)) s.1,
            s.2.set i (b.getD (off + i) 0)))
        (List.replicate (rows * n) 0, List.replicate rows 0)).2.getD i 0
          = if i < k then b.getD (off + i) 0 else 0) := by
  induction k with
  | zero =>
    refine ⟨by simp [forLoop], by simp [forLoop], fun p hp => ?_, fun i hi => ?_⟩
    · simp [forLoop, List.getD_eq_getElem?_getD, hp]
    · simp [forLoop, List.getD_eq_getElem?_getD, hi]
  | succ k ih =>
    obtain ⟨hX, hY, hgX, hgY⟩ := ih (Nat.le_of_succ_le hk)
    have hrow := copyRow_getD n (k * n) (fun j => A.getD ((off + k) * n + j) 0)
      (forLoop k (fun i (s : List α × List α) =>
        (forLoop n (fun j X => X.set (i * n + j) (A.getD ((off + i) * n + j) 0)) s.1,
          s.2.set i (b.getD (off + i) 0)))
      (List.replicate (rows * n) 0, List.replicate rows 0)).1
    have hkn : (k + 1) * n = k * n + n := Nat.succ_mul k n
    have hle : (k + 1) * n ≤ rows * n := Nat.mul_le_mul_right n hk
    refine ⟨?_, ?_, fun p hp => ?_, fun i hi => ?_⟩
    · rw [forLoop_succ]
      exact hrow.1.trans hX
    · rw [forLoop_succ, List.length_set]
      exact hY
    · rw [forLoop_succ]
      refine (hrow.2 p).trans ?_
      rw [hX, hgX p hp]
      by_cases h1 : k * n ≤ p ∧ p < k * n + n ∧ p < rows * n
      · rw [if_pos h1, if_pos (by omega)]
        congr 1
        rw [Nat.add_mul]
        omega
      · rw [if_neg h1]
        by_cases h2 : p < k * n
        · rw [if_pos h2, if_pos (by omega)]
        · rw [if_neg h2, if_neg (by omega)]
    · rw [forLoop_succ, getD_set, hY, hgY i hi]
      by_cases h1 : i = k ∧ k < rows
      · rw [if_pos h1, if_pos (by omega), h1.1]
      · rw [if_neg h1]
        by_cases h2 : i < k
        · rw [if_pos h2, if_pos (by omega)]
        · rw [if_neg h2, if_neg (by omega)]

/-- The split copies rows `off .. off + rows` of `A` and `b`. -/
theorem copyRows_eq (A b : List α) (off rows n : Nat) (hA : (off + rows) * n ≤ A.length)
    (hb : off + rows ≤ b.length) :
    copyRows A b off rows n = ((A.drop (off * n)).take (rows * n), (b.drop off).take rows) := by
  obtain ⟨hX, hY, hgX, hgY⟩ := copyRows_inv A b off rows n rows le_rfl
  have hA' : off * n + rows * n ≤ A.length := by rw [← Nat.add_mul]; exact hA
  unfold copyRows
  apply Prod.ext
  · apply eq_of_getD_eq 0
    · rw [hX, List.length_take, List.length_drop]
      omega
    · intro p hp
      rw [hX] at hp
      rw [hgX p hp, if_pos hp]
      simp only [List.getD_eq_getElem?_getD, List.getElem?_take, List.getElem?_drop, if_pos hp]
  · apply eq_of_getD_eq 0
    · rw [hY, List.length_take, List.length_drop]
      omega
    · intro i hi
      rw [hY] at hi
      rw [hgY i hi, if_pos hi]
      simp only [List.getD_eq_getElem?_getD, List.getElem?_take, List.getElem?_drop, if_pos hi]

/-- The split is the head and the tail of the combined data. -/
theorem split_eq (A b : List α) (m n mValid : Nat) (hA : A.length = m * n)
    (hb : b.length = m) (hv : mValid ≤ m) :
    split A b (m - mValid) n mValid
      = ⟨A.take ((m - mValid) * n), b.take (m - mValid),
          A.drop ((m - mValid) * n), b.drop (m - mValid)⟩ := by
  have hmul : (m - mValid) * n + mValid * n = m * n := by
    rw [← Nat.add_mul, Nat.sub_add_cancel hv]
  have htrain := copyRows_eq A b 0 (m - mValid) n
    (by rw [hA, Nat.zero_add]; exact Nat.mul_le_mul_right n (Nat.sub_le m mValid))
    (by rw [hb, Nat.zero_add]; exact Nat.sub_le m mValid)
  rw [Nat.zero_mul, List.drop_zero, List.drop_zero] at htrain
  unfold split
  rw [htrain]
  by_cases h0 : mValid > 0
  · have hvalid := copyRows_eq A b (m - mValid) mValid n
      (by rw [hA, Nat.sub_add_cancel hv]) (by rw [hb, Nat.sub_add_cancel hv])
    rw [if_pos h0, hvalid]
    have h1 : (A.drop ((m - mValid) * n)).take (mValid * n) = A.drop ((m - mValid) * n) := by
      apply List.take_of_length_le
      rw [List.length_drop, hA]
      omega
    have h2 : (b.drop (m - mValid)).take mValid = b.drop (m - mValid) := by
      apply List.take_of_length_le
      rw [List.length_drop, hb]
      omega
    simp only [h1, h2]
  · have hz : mValid = 0 := by omega
    subst hz
    rw [if_neg h0]
    have h1 : A.drop ((m - 0) * n) = [] := by
      apply List.drop_of_length_le
      rw [hA, Nat.sub_zero]
    have h2 : b.drop (m - 0) = [] := by
      apply List.drop_of_length_le
      rw [hb, Nat.sub_zero]
    simp only [h1, h2]

/-- C3. For a combined data set `A` (`m` rows of `n` features, row-major), `b`
(`m` targets) and `mValid ≤ m`, with `mTrain = m - mValid`: training row `i` is
combined row `i`, validation row `i` is combined row `mTrain + i`, for features
and targets alike; `trainX ++ validX = A` and `trainY ++ validY = b`. -/
theorem split_head_tail (A b : List α) (m n mValid : Nat) (hA : A.length = m * n)
    (hb : b.length = m) (hv : mValid ≤ m) :
    (∀ i, i < m - mValid →
      (split A b (m - mValid) n mValid).trainY.getD i 0 = b.getD i 0
      ∧ ∀ j, j < n →
        (split A b (m - mValid) n mValid).trainX.getD (i * n + j) 0 = A.getD (i * n + j) 0)
    ∧ (∀ i, i < mValid →
      (split A b (m - mValid) n mValid).validY.getD i 0 = b.getD (m - mValid + i) 0
      ∧ ∀ j, j < n →
        (split A b (m - mValid) n mValid).validX.getD (i * n + j) 0
          = A.getD ((m - mValid + i) * n + j) 0)
    ∧ (split A b (m - mValid) n mValid).trainX ++ (split A b (m - mValid) n mValid).validX = A
    ∧ (split A b (m - mValid) n mValid).trainY ++ (split A b (m - mValid) n mValid).validY = b
    ∧ (split A b (m - mValid) n mValid).trainY.length = m - mValid
    ∧ (split A b (m - mValid) n mValid).validY.length = mValid := by
  rw [split_eq A b m n mValid hA hb hv]
  refine ⟨fun i hi => ⟨?_, fun j hj => ?_⟩, fun i hi => ⟨?_, fun j hj => ?_⟩,
    List.take_append_drop _ _, List.take_append_drop _ _, ?_, ?_⟩
  · simp only [List.getD_eq_getElem?_getD, List.getElem?_take, if_pos hi]
  · have hlt : i * n + j < (m - mValid) * n := by
      calc i * n + j < i * n + n := Nat.add_lt_add_left hj _
        _ = (i + 1) * n := (Nat.succ_mul i n).symm
        _ ≤ (m - mValid) * n := Nat.mul_le_mul_right n hi
    simp only [List.getD_eq_getElem?_getD, List.getElem?_take, if_pos hlt]
  · simp only [List.getD_eq_getElem?_getD, List.getElem?_drop]
  · simp only [List.getD_eq_getElem?_getD, List.getElem?_drop, Nat.add_mul, Nat.add_assoc]
  · rw [List.length_take, hb]
    omega
  · rw [List.length_drop, hb]
    omega

/-- C3 on three rows of two features with one validation row. -/
theorem split_head_tail_witness :
    (split ([1, 2, 3, 4, 5, 6] : List ℚ) [7, 8, 9] (3 - 1) 2 1).trainX
        ++ (split ([1, 2, 3, 4, 5, 6] : List ℚ) [7, 8, 9] (3 - 1) 2 1).validX
      = [1, 2, 3, 4, 5, 6]
    ∧ (split ([1, 2, 3, 4, 5, 6] : List ℚ) [7, 8, 9] (3 - 1) 2 1).trainY
        ++ (split ([1, 2, 3, 4, 5, 6] : List ℚ) [7, 8, 9] (3 - 1) 2 1).validY
      = [7, 8, 9]
    ∧ (split ([1, 2, 3, 4, 5, 6] : List ℚ) [7, 8, 9] (3 - 1) 2 1).validY.length = 1 :=
  have h := split_head_tail ([1, 2, 3, 4, 5, 6] : List ℚ) [7, 8, 9] 3 2 1 (by decide)
    (by decide) (by decide)
  ⟨h.2.2.1, h.2.2.2.1, h.2.2.2.2.2⟩

end SplitRows

end ElasticNetMapd

namespace ElasticNetMapd

/-! ## The `nlambda` check and the zero-row split -/

section Checks

variable {α : Type} [LinearOrderedField α]

/-- A run of `ElasticNet` is its own part (fill, split, statistics, base
penalty, source matrix) followed by the run of `ElasticNetptr`. -/
theorem ElasticNet_decomp (sqrt exp log : α → α) (GetX : Nat → Nat → Nat → α)
    (A b : List α) (m n : Nat) (nLambdas nAlphas : Int) (validFraction : ℚ) :
    ∃ (pre : List (Event α)) (lm0 : α) (tX tY vX vY : Nat → α),
      (ElasticNet sqrt exp log GetX A b m n nLambdas nAlphas validFraction).log
        = pre ++ (ElasticNetptr sqrt exp log GetX (mTrainOf m (mValidOf m validFraction)) n
            (mValidOf m validFraction) lm0 1e-7 nLambdas nAlphas tX tY vX vY).log
      ∧ (ElasticNet sqrt exp log GetX A b m n nLambdas nAlphas validFraction).status
        = (ElasticNetptr sqrt exp log GetX (mTrainOf m (mValidOf m validFraction)) n
            (mValidOf m validFraction) lm0 1e-7 nLambdas nAlphas tX tY vX vY).status
      ∧ [Event.startFillData, Event.endFillData, Event.startSplit, Event.endSplit] <+: pre
      ∧ Event.sdTrainY ∈ pre
      ∧ Event.lambdaMax0 lm0 ∈ pre
      ∧ Event.stageSource ∈ pre
      ∧ Event.mustUseNlambda ∉ pre
      ∧ Event.stageWorker ∉ pre
      ∧ (∀ c e, Event.solve c e ∉ pre)
      ∧ (∀ r, Event.record r ∉ pre) := by
  refine ⟨_, _, _, _, _, _, rfl, rfl, ?_, ?_, ?_, ?_, ?_, ?_, ?_, ?_⟩
  · simp only [List.append_assoc]
    exact ⟨_, rfl⟩
  · simp
  · simp
  · simp
  · simp only [List.mem_append, not_or]
    refine ⟨⟨by simp, ?_⟩, by simp⟩
    split_ifs <;> simp
  · simp only [List.mem_append, not_or]
    refine ⟨⟨by simp, ?_⟩, by simp⟩
    split_ifs <;> simp
  · intro c e
    simp only [List.mem_append, not_or]
    refine ⟨⟨by simp, ?_⟩, by simp⟩
    split_ifs <;> simp
  · intro r
    simp only [List.mem_append, not_or]
    refine ⟨⟨by simp, ?_⟩, by simp⟩
    split_ifs <;> simp

theorem mustUseNlambda_not_mem (sqrt exp log : α → α) (GetX : Nat → Nat → Nat → α)
    (mTrain n mValid : Nat) (lambda_max0 lambda_min_ratio : α) (nLambdas nAlphas : Int)
    (trainX trainY validX validY : Nat → α) (h : ¬ nLambdas ≤ 1) :
    Event.mustUseNlambda ∉ (ElasticNetptr sqrt exp log GetX mTrain n mValid lambda_max0
        lambda_min_ratio nLambdas nAlphas trainX trainY validX validY).log := by
  rw [mem_log_ElasticNetptr _ _ _ _ _ _ _ _ _ _ _ _ _ _ _ h]
  simp [lambdaStep]

/-- With `nLambdas ≥ 2` a run of `ElasticNet` returns, without the `nlambda`
diagnostic, and for every grid point its log holds the solver call followed by
the record; over zero training rows the record's `trainRMSE` is a NaN. -/
theorem ElasticNet_accepted (sqrt exp log : α → α) (GetX : Nat → Nat → Nat → α)
    (A b : List α) (m n : Nat) (nLambdas nAlphas : Int) (validFraction : ℚ)
    (h : 2 ≤ nLambdas) :
    (ElasticNet sqrt exp log GetX A b m n nLambdas nAlphas validFraction).status
        = Status.returned
    ∧ Event.mustUseNlambda
        ∉ (ElasticNet sqrt exp log GetX A b m n nLambdas nAlphas validFraction).log
    ∧ ∀ a i, a < nAlphas.toNat → i < nLambdas.toNat →
        ∃ r, [Event.solve (r.alpha * r.lambda * 1) ((1 - r.alpha) * r.lambda * 1),
              Event.record r]
            <:+: (ElasticNet sqrt exp log GetX A b m n nLambdas nAlphas validFraction).log
          ∧ r.a = a ∧ r.i = i
          ∧ (mTrainOf m (mValidOf m validFraction) = 0 → r.trainRMSE = none) := by
  have hn : ¬ nLambdas ≤ 1 := by omega
  obtain ⟨pre, lm0, tX, tY, vX, vY, hlog, hst, _, _, _, _, hno, _, _, _⟩ :=
    ElasticNet_decomp sqrt exp log GetX A b m n nLambdas nAlphas validFraction
  refine ⟨?_, ?_, ?_⟩
  · rw [hst]
    exact ElasticNetptr_status _ _ _ _ _ _ _ _ _ _ _ _ _ _ _ hn
  · rw [hlog, List.mem_append, not_or]
    exact ⟨hno, mustUseNlambda_not_mem _ _ _ _ _ _ _ _ _ _ _ _ _ _ _ hn⟩
  · intro a i ha hi
    have hinf := lambdaStep_infix_log sqrt exp log GetX
      (mTrainOf m (mValidOf m validFraction)) n (mValidOf m validFraction) lm0 1e-7
      nLambdas nAlphas tX tY vX vY hn a i ha hi
    obtain ⟨r, hr, hra, hri, hrt⟩ := lambdaStep_eq sqrt exp log GetX
      (mTrainOf m (mValidOf m validFraction)) n (mValidOf m validFraction) nLambdas
      tX tY vX vY a (alpha nAlphas a) (lambda_max lm0) (lambda_min 1e-7 (lambda_max lm0)) i
    rw [hr] at hinf
    rw [hlog]
    refine ⟨r, hinf.trans (List.suffix_append _ _).isInfix, hra, hri, ?_⟩
    intro h0
    rw [hrt, h0]
    exact getRMSE_zero _ _ _

/-- C9, as stated, fails: on one row of one feature with `nLambdas = 1` the run
is rejected only after the fill, the split, the target statistics, the base
penalty and the construction of the source matrix. -/
theorem nlambda_rejected_after_split :
    (ElasticNet Real.sqrt Real.exp Real.log (fun _ _ _ => 0) [1] [1] 1 1 1 1 0).log
      = [Event.startFillData, Event.endFillData, Event.startSplit, Event.endSplit,
          Event.rowsTraining 1, Event.meanTrainY (some 1), Event.sdTrainY,
          Event.lambdaMax0 0, Event.lambdaMinRatio 1e-7, Event.stageSource,
          Event.mustUseNlambda] := by
  simp [ElasticNet, ElasticNetptr, split, copyRows, forLoop, mValidOf_zero, mTrainOf, meanOf,
    lambda_max0]

/-- C9, amended. A run with `nLambdas < 2` is rejected at the entry of
`ElasticNetptr`, with the diagnostic and `exit(-1)`, before `ElasticNetptr`
stages any data, calls the solver or emits a record; in `ElasticNet` the
rejection comes after the fill, the split, the target statistics, the base
penalty and the source matrix.  A run with `nLambdas ≥ 2` is not rejected. -/
theorem nlambda_check (sqrt exp log : α → α) (GetX : Nat → Nat → Nat → α)
    (A b : List α) (m n : Nat) (nLambdas nAlphas : Int) (validFraction : ℚ) :
    (nLambdas < 2 →
      (∀ (mTrain mValid : Nat) (lm0 ratio : α) (tX tY vX vY : Nat → α),
        ElasticNetptr sqrt exp log GetX mTrain n mValid lm0 ratio nLambdas nAlphas tX tY vX vY
          = ⟨[Event.mustUseNlambda], Status.exited (-1)⟩)
      ∧ (ElasticNet sqrt exp log GetX A b m n nLambdas nAlphas validFraction).status
          = Status.exited (-1)
      ∧ ∃ pre, (ElasticNet sqrt exp log GetX A b m n nLambdas nAlphas validFraction).log
            = pre ++ [Event.mustUseNlambda]
          ∧ [Event.startFillData, Event.endFillData, Event.startSplit, Event.endSplit] <+: pre
          ∧ Event.sdTrainY ∈ pre
          ∧ (∃ v, Event.lambdaMax0 v ∈ pre)
          ∧ Event.stageSource ∈ pre
          ∧ Event.stageWorker ∉ pre
          ∧ (∀ c e, Event.solve c e ∉ pre)
          ∧ (∀ r, Event.record r ∉ pre))
    ∧ (2 ≤ nLambdas →
      (∀ (mTrain mValid : Nat) (lm0 ratio : α) (tX tY vX vY : Nat → α),
        (ElasticNetptr sqrt exp log GetX mTrain n mValid lm0 ratio nLambdas nAlphas
            tX tY vX vY).status = Status.returned
        ∧ Event.mustUseNlambda ∉ (ElasticNetptr sqrt exp log GetX mTrain n mValid lm0 ratio
            nLambdas nAlphas tX tY vX vY).log)
      ∧ (ElasticNet sqrt exp log GetX A b m n nLambdas nAlphas validFraction).status
          = Status.returned
      ∧ Event.mustUseNlambda
          ∉ (ElasticNet sqrt exp log GetX A b m n nLambdas nAlphas validFraction).log) := by
  constructor
  · intro h
    have hle : nLambdas ≤ 1 := by omega
    obtain ⟨pre, lm0, tX, tY, vX, vY, hlog, hst, h1, h2, h3, h4, _, h6, h7, h8⟩ :=
      ElasticNet_decomp sqrt exp log GetX A b m n nLambdas nAlphas validFraction
    rw [ElasticNetptr_rejected _ _ _ _ _ _ _ _ _ _ _ _ _ _ _ hle] at hlog hst
    exact ⟨fun _ _ _ _ _ _ _ _ => ElasticNetptr_rejected _ _ _ _ _ _ _ _ _ _ _ _ _ _ _ hle,
      hst, pre, hlog, h1, h2, ⟨lm0, h3⟩, h4, h6, h7, h8⟩
  · intro h
    have hn : ¬ nLambdas ≤ 1 := by omega
    have hacc := ElasticNet_accepted sqrt exp log GetX A b m n nLambdas nAlphas
      validFraction h
    exact ⟨fun _ _ _ _ _ _ _ _ => ⟨ElasticNetptr_status _ _ _ _ _ _ _ _ _ _ _ _ _ _ _ hn,
      mustUseNlambda_not_mem _ _ _ _ _ _ _ _ _ _ _ _ _ _ _ hn⟩, hacc.1, hacc.2.1⟩

/-- C9, amended, at `nLambdas = 1` and at `nLambdas = 2` on one row of one
feature. -/
theorem nlambda_check_witness :
    (ElasticNet Real.sqrt Real.exp Real.log (fun _ _ _ => 0) [1] [1] 1 1 1 1 0).status
        = Status.exited (-1)
    ∧ (ElasticNet Real.sqrt Real.exp Real.log (fun _ _ _ => 0) [1] [1] 1 1 2 1 0).status
        = Status.returned :=
  ⟨((nlambda_check Real.sqrt Real.exp Real.log (fun _ _ _ => 0) [1] [1] 1 1 1 1 0).1
      (by decide)).2.1,
    ((nlambda_check Real.sqrt Real.exp Real.log (fun _ _ _ => 0) [1] [1] 1 1 2 1 0).2
      (by decide)).2.1⟩

end Checks

end ElasticNetMapd

namespace ElasticNetMapd

/-! ## Concrete runs -/

section Concrete

/-- C1 fails on the code.  On two rows of two features, `A = [[1,1],[0,0]]`
row-major and `b = [1,-1]` (mean `0`), the split stores `trainX` row-major, the
loop of lines 327-335 reads it as `trainX[i + j*mTrain]` and obtains
`lambda_max0 = 0`, which `ElasticNet` prints, where `max_j |Σ_i trainX[i,j] *
(trainY[i] - meanTrainY)|` is `1`. -/
theorem lambda_max0_reads_column_major :
    (split ([1, 1, 0, 0] : List ℝ) [1, -1] 2 2 0).trainX = [1, 1, 0, 0]
    ∧ (split ([1, 1, 0, 0] : List ℝ) [1, -1] 2 2 0).trainY = [1, -1]
    ∧ meanOf ([1, -1] : List ℝ) = some 0
    ∧ lambda_max0 2 2 ([1, 1, 0, 0] : List ℝ) [1, -1] 0 = 0
    ∧ lambdaMax0Spec 2 2 ([1, 1, 0, 0] : List ℝ) [1, -1] 0 = 1
    ∧ Event.lambdaMax0 0
        ∈ (ElasticNet Real.sqrt Real.exp Real.log (fun _ _ _ => 0) [1, 1, 0, 0] [1, -1] 2 2
            2 1 0).log := by
  have h1 : (split ([1, 1, 0, 0] : List ℝ) [1, -1] 2 2 0).trainX = [1, 1, 0, 0] := by
    simp [split, copyRows, forLoop]
  have h2 : (split ([1, 1, 0, 0] : List ℝ) [1, -1] 2 2 0).trainY = [1, -1] := by
    simp [split, copyRows, forLoop]
  have h3 : meanOf ([1, -1] : List ℝ) = some 0 := by
    simp [meanOf]
  have h4 : lambda_max0 2 2 ([1, 1, 0, 0] : List ℝ) [1, -1] 0 = 0 := by
    simp [lambda_max0, forLoop]
  refine ⟨h1, h2, h3, h4, ?_, ?_⟩
  · simp [lambdaMax0Spec, List.range_succ]
  · have hv : mValidOf 2 0 = 0 := mValidOf_zero 2
    have hm : mTrainOf 2 0 = 2 := by
      simp [mTrainOf]
    unfold ElasticNet
    simp only [hv, hm, h1, h2, h3, Option.getD_some, h4]
    simp

/-- C4, amended, at `m = 100` and `validFraction` the `double` nearest to `0.2`
(`mValid = 20`, `mTrain = 80`), and on a run of two grid points without
validation rows. -/
theorem split_sizes_witness :
    mValidOf 100 (3602879701896397 / 18014398509481984) = 20
    ∧ mTrainOf 100 (mValidOf 100 (3602879701896397 / 18014398509481984)) = 80
    ∧ mTrainOf 100 (mValidOf 100 (3602879701896397 / 18014398509481984))
        + mValidOf 100 (3602879701896397 / 18014398509481984) = 100
    ∧ ∃ r, r ∈ records (ElasticNetptr Real.sqrt Real.exp Real.log (fun _ _ _ => 1) 1 1 0 1
          (1 / 2) 2 1 (fun _ => 1) (fun _ => 1) (fun _ => 0) (fun _ => 0)).log
        ∧ r.validRMSE = some (-1) := by
  have h := split_sizes Real.sqrt Real.exp Real.log (fun _ _ _ => 1) 1 1 1 (1 / 2) 2 1
    (fun _ => 1) (fun _ => 1) (fun _ => 0) (fun _ => 0) 100
    (3602879701896397 / 18014398509481984) (by norm_num) oneFifth_double (by norm_num)
    (by norm_num)
  have hmem := (mem_records_ElasticNetptr Real.sqrt Real.exp Real.log (fun _ _ _ => 1) 1 1 0 1
    (1 / 2) 2 1 (fun _ => 1) (fun _ => 1) (fun _ => 0) (fun _ => 0) (by decide) _).mpr
    ⟨0, by decide, 0, by decide, rfl⟩
  have hv : mValidOf 100 (3602879701896397 / 18014398509481984) = 20 := by
    unfold mValidOf
    rw [roundDouble_natCast 100 (by norm_num)]
    rw [roundDouble_eval _ 4 5629499534213120 (by decide)] <;> norm_num
  refine ⟨hv, ?_, h.2.2.1, _, hmem, h.2.2.2.2.2 _ hmem⟩
  rw [h.2.1, hv]

/-- C5 on one training row and one validation row of one feature, with
coefficient `1`: the training prediction is exact (`trainRMSE = 0`), the
validation prediction is off by one (`validRMSE = 1`). -/
theorem record_rmse_witness :
    ∃ r, r ∈ records (ElasticNetptr Real.sqrt Real.exp Real.log (fun _ _ _ => 1) 1 1 1 1
          (1 / 2) 2 1 (fun _ => 1) (fun _ => 1) (fun _ => 2) (fun _ => 1)).log
      ∧ r.trainRMSE = some 0 ∧ r.validRMSE = some 1 := by
  have hmem := (mem_records_ElasticNetptr Real.sqrt Real.exp Real.log (fun _ _ _ => 1) 1 1 1 1
    (1 / 2) 2 1 (fun _ => 1) (fun _ => 1) (fun _ => 2) (fun _ => 1) (by decide) _).mpr
    ⟨0, by decide, 0, by decide, rfl⟩
  have h := record_rmse Real.sqrt Real.exp Real.log (fun _ _ _ => 1) 1 1 1 1
    (1 / 2) 2 1 (fun _ => 1) (fun _ => 1) (fun _ => 2) (fun _ => 1) _ hmem
  refine ⟨_, hmem, ?_, ?_⟩
  · rw [h.1]
    simp [rmseSpec]
  · rw [h.2 (by decide)]
    simp [rmseSpec]
    norm_num

/-- C6 on three coefficients: all zero gives `dof = 0`, all one gives `dof = 3`. -/
theorem dof_eq_card_witness :
    dof 3 (fun _ => (0 : ℚ)) = 0 ∧ dof 3 (fun _ => (1 : ℚ)) = 3 :=
  ⟨(dof_eq_card 3 (fun _ => (0 : ℚ))).2.1 (fun _ _ => rfl),
    (dof_eq_card 3 (fun _ => (1 : ℚ))).2.2.1 (fun _ _ => by norm_num)⟩

end Concrete

end ElasticNetMapd
